import Mathlib

/-!
Verification of the klecks-headless raster-painting core.

This file gives a shallow embedding, in Lean 4, of the pixel-level core of
the klecks-headless repository:

* the tolerance color-distance admission test `colorsWithinTolerance`
  (klecks-manager.ts),
* the stack-based flood fill `performFill` and the region-mask extraction
  `computeFloodRegionMask` (klecks-manager.ts),
* the stroke lifecycle of `BrushManager` (`startStroke` / `addToStroke` /
  `endStroke`) with its gap interpolation (brush-manager source),
* the gradient rasterizers `applyDistanceGradientFromPoint` and
  `applyRadialBucketFill` (klecks-manager.ts),
* the separable alpha box blur `blurAlpha` (klecks-manager.ts).

JavaScript numbers are modelled by rationals (exact arithmetic); calls to
Math.sqrt are modelled by `Real.sqrt` over the rational operand.  Typed
arrays keep their wrap-around behaviour (`Uint16Array` stores modulo 2^16).
Pixel buffers are row-major lists of RGBA values, as in `ImageData`.
-/

set_option maxHeartbeats 1600000
set_option maxRecDepth 100000

namespace Klecks

/-- An RGBA color, one entry of an `ImageData` buffer (channels are byte
values in the running system; the embedding uses unbounded integers and
states byte bounds as hypotheses where they matter). -/
structure RGBA where
  r : ℤ
  g : ℤ
  b : ℤ
  a : ℤ
deriving DecidableEq, Repr

/-- An RGB color (fill and brush colors of the manager). -/
structure RGB where
  r : ℤ
  g : ℤ
  b : ℤ
deriving DecidableEq, Repr

/-- Default pixel used for out-of-range reads of a buffer. -/
def dfltPx : RGBA := ⟨0, 0, 0, 0⟩

/-! ### Comparisons of a square root against a rational

The source compares `Math.sqrt(e)` against thresholds.  The following
predicates state those comparisons over `Real.sqrt` and are given decision
procedures through the squared form, so that concrete instances evaluate. -/

/-- The comparison sqrt q is at most c, as the source writes it. -/
def sqrtLeQ (q c : ℚ) : Prop := Real.sqrt (q : ℝ) ≤ (c : ℝ)

/-- The comparison sqrt q is less than c, as the source writes it. -/
def sqrtLtQ (q c : ℚ) : Prop := Real.sqrt (q : ℝ) < (c : ℝ)

/-- The comparison c is less than sqrt q, as the source writes it. -/
def qLtSqrt (c q : ℚ) : Prop := (c : ℝ) < Real.sqrt (q : ℝ)

instance decSqrtLeQ (q c : ℚ) : Decidable (sqrtLeQ q c) :=
  decidable_of_iff (0 ≤ c ∧ q ≤ c ^ 2) (by
    unfold sqrtLeQ
    rw [Real.sqrt_le_iff]
    constructor
    · rintro ⟨h1, h2⟩
      exact ⟨by exact_mod_cast h1, by exact_mod_cast h2⟩
    · rintro ⟨h1, h2⟩
      exact ⟨by exact_mod_cast h1, by exact_mod_cast h2⟩)

instance decSqrtLtQ (q c : ℚ) : Decidable (sqrtLtQ q c) :=
  decidable_of_iff (0 < c ∧ (q < c ^ 2 ∨ q < 0)) (by
    unfold sqrtLtQ
    constructor
    · rintro ⟨hc, hq | hq⟩
      · rw [Real.sqrt_lt' (by exact_mod_cast hc)]
        exact_mod_cast hq
      · have h0 : Real.sqrt (q : ℝ) = 0 :=
          Real.sqrt_eq_zero_of_nonpos (by exact_mod_cast hq.le)
        rw [h0]; exact_mod_cast hc
    · intro h
      have hc : (0 : ℝ) < c := lt_of_le_of_lt (Real.sqrt_nonneg _) h
      have hc' : (0 : ℚ) < c := by exact_mod_cast hc
      refine ⟨hc', Or.inl ?_⟩
      have := (Real.sqrt_lt' hc).1 h
      exact_mod_cast this)

instance decQLtSqrt (c q : ℚ) : Decidable (qLtSqrt c q) :=
  decidable_of_iff (c < 0 ∨ (0 ≤ c ∧ c ^ 2 < q)) (by
    unfold qLtSqrt
    constructor
    · rintro (hc | ⟨hc, hq⟩)
      · exact lt_of_lt_of_le (by exact_mod_cast hc) (Real.sqrt_nonneg _)
      · rw [Real.lt_sqrt (by exact_mod_cast hc)]
        exact_mod_cast hq
    · intro h
      by_cases hc : c < 0
      · exact Or.inl hc
      · push_neg at hc
        refine Or.inr ⟨hc, ?_⟩
        have := (@Real.lt_sqrt (c : ℝ) _ (by exact_mod_cast hc)).1 h
        exact_mod_cast this)

/-! ### The color-distance admission test -/

/-- The squared weighted color distance computed inside
`colorsWithinTolerance`: `0.299 rDiff² + 0.587 gDiff² + 0.114 bDiff² +
0.1 aDiff²` with `xDiff` the absolute per-channel difference. -/
def colorDistSq (c1 c2 : RGBA) : ℚ :=
  let rDiff : ℚ := (|c1.r - c2.r| : ℤ)
  let gDiff : ℚ := (|c1.g - c2.g| : ℤ)
  let bDiff : ℚ := (|c1.b - c2.b| : ℤ)
  let aDiff : ℚ := (|c1.a - c2.a| : ℤ)
  299 / 1000 * (rDiff * rDiff) + 587 / 1000 * (gDiff * gDiff) +
    114 / 1000 * (bDiff * bDiff) + 1 / 10 * (aDiff * aDiff)

/-- 1000 times `colorDistSq`, as an integer.  Used only to decide the
admission test by kernel-friendly integer arithmetic. -/
def colorDistSqNum (c1 c2 : RGBA) : ℤ :=
  let rDiff := |c1.r - c2.r|
  let gDiff := |c1.g - c2.g|
  let bDiff := |c1.b - c2.b|
  let aDiff := |c1.a - c2.a|
  299 * (rDiff * rDiff) + 587 * (gDiff * gDiff) +
    114 * (bDiff * bDiff) + 100 * (aDiff * aDiff)

theorem colorDistSq_eq_num_div (c1 c2 : RGBA) :
    colorDistSq c1 c2 = (colorDistSqNum c1 c2 : ℚ) / 1000 := by
  unfold colorDistSq colorDistSqNum
  push_cast
  ring

/-- `KlecksManager.colorsWithinTolerance`: at tolerance 0 the test is exact
per-channel equality; otherwise the weighted euclidean distance must be at
most the tolerance. -/
def colorsWithinTolerance (tol : ℚ) (c1 c2 : RGBA) : Prop :=
  if tol = 0 then c1 = c2
  else sqrtLeQ (colorDistSq c1 c2) tol

theorem distSq_le_sq_iff_int (tol : ℚ) (c1 c2 : RGBA) :
    colorDistSq c1 c2 ≤ tol ^ 2 ↔
      colorDistSqNum c1 c2 * (tol.den : ℤ) ^ 2 ≤ 1000 * tol.num ^ 2 := by
  set n := tol.num with hn
  set d := tol.den with hd
  have hdpos : (0 : ℚ) < (d : ℚ) := by
    have := tol.den_pos
    rw [← hd] at this
    exact_mod_cast this
  have hq : ((n : ℚ) / (d : ℚ)) = tol := Rat.num_div_den tol
  rw [colorDistSq_eq_num_div, ← hq, div_pow,
    div_le_div_iff₀ (by norm_num) (by positivity)]
  constructor
  · intro h
    have h'' : ((colorDistSqNum c1 c2 * d ^ 2 : ℤ) : ℚ) ≤
        ((1000 * n ^ 2 : ℤ) : ℚ) := by push_cast at h ⊢; linarith
    exact_mod_cast h''
  · intro h
    have h' : ((colorDistSqNum c1 c2 * d ^ 2 : ℤ) : ℚ) ≤
        ((1000 * n ^ 2 : ℤ) : ℚ) := by exact_mod_cast h
    push_cast at h'
    linarith

instance decColorsWithinTolerance (tol : ℚ) (c1 c2 : RGBA) :
    Decidable (colorsWithinTolerance tol c1 c2) :=
  decidable_of_iff
    (if tol = 0 then c1 = c2
     else 0 ≤ tol.num ∧
       colorDistSqNum c1 c2 * (tol.den : ℤ) ^ 2 ≤ 1000 * tol.num ^ 2)
    (by
      unfold colorsWithinTolerance sqrtLeQ
      by_cases h0 : tol = 0
      · simp [h0]
      · simp only [if_neg h0]
        rw [Real.sqrt_le_iff]
        apply and_congr
        · rw [Rat.num_nonneg]
          constructor
          · intro h; exact_mod_cast h
          · intro h; exact_mod_cast h
        · rw [← distSq_le_sq_iff_int tol c1 c2]
          exact ⟨fun h => by exact_mod_cast h, fun h => by exact_mod_cast h⟩)

theorem colorDistSq_nonneg (c1 c2 : RGBA) : 0 ≤ colorDistSq c1 c2 := by
  unfold colorDistSq
  positivity

theorem colorDistSq_self (c : RGBA) : colorDistSq c c = 0 := by
  simp [colorDistSq]

theorem colorDistSq_comm (c1 c2 : RGBA) :
    colorDistSq c1 c2 = colorDistSq c2 c1 := by
  simp [colorDistSq, abs_sub_comm]

theorem colorDistSq_eq_zero_iff (c1 c2 : RGBA) :
    colorDistSq c1 c2 = 0 ↔ c1 = c2 := by
  constructor
  · intro h
    unfold colorDistSq at h
    simp only at h
    have hr : ((|c1.r - c2.r| : ℤ) : ℚ) = 0 := by nlinarith [sq_nonneg ((|c1.r - c2.r| : ℤ) : ℚ), sq_nonneg ((|c1.g - c2.g| : ℤ) : ℚ), sq_nonneg ((|c1.b - c2.b| : ℤ) : ℚ), sq_nonneg ((|c1.a - c2.a| : ℤ) : ℚ), abs_nonneg (c1.r - c2.r), abs_nonneg (c1.g - c2.g), abs_nonneg (c1.b - c2.b), abs_nonneg (c1.a - c2.a)]
    have hg : ((|c1.g - c2.g| : ℤ) : ℚ) = 0 := by nlinarith [sq_nonneg ((|c1.r - c2.r| : ℤ) : ℚ), sq_nonneg ((|c1.g - c2.g| : ℤ) : ℚ), sq_nonneg ((|c1.b - c2.b| : ℤ) : ℚ), sq_nonneg ((|c1.a - c2.a| : ℤ) : ℚ), abs_nonneg (c1.r - c2.r), abs_nonneg (c1.g - c2.g), abs_nonneg (c1.b - c2.b), abs_nonneg (c1.a - c2.a)]
    have hb : ((|c1.b - c2.b| : ℤ) : ℚ) = 0 := by nlinarith [sq_nonneg ((|c1.r - c2.r| : ℤ) : ℚ), sq_nonneg ((|c1.g - c2.g| : ℤ) : ℚ), sq_nonneg ((|c1.b - c2.b| : ℤ) : ℚ), sq_nonneg ((|c1.a - c2.a| : ℤ) : ℚ), abs_nonneg (c1.r - c2.r), abs_nonneg (c1.g - c2.g), abs_nonneg (c1.b - c2.b), abs_nonneg (c1.a - c2.a)]
    have ha : ((|c1.a - c2.a| : ℤ) : ℚ) = 0 := by nlinarith [sq_nonneg ((|c1.r - c2.r| : ℤ) : ℚ), sq_nonneg ((|c1.g - c2.g| : ℤ) : ℚ), sq_nonneg ((|c1.b - c2.b| : ℤ) : ℚ), sq_nonneg ((|c1.a - c2.a| : ℤ) : ℚ), abs_nonneg (c1.r - c2.r), abs_nonneg (c1.g - c2.g), abs_nonneg (c1.b - c2.b), abs_nonneg (c1.a - c2.a)]
    have hr' : c1.r = c2.r := by
      have : |c1.r - c2.r| = 0 := by exact_mod_cast hr
      have := abs_eq_zero.1 this; omega
    have hg' : c1.g = c2.g := by
      have : |c1.g - c2.g| = 0 := by exact_mod_cast hg
      have := abs_eq_zero.1 this; omega
    have hb' : c1.b = c2.b := by
      have : |c1.b - c2.b| = 0 := by exact_mod_cast hb
      have := abs_eq_zero.1 this; omega
    have ha' : c1.a = c2.a := by
      have : |c1.a - c2.a| = 0 := by exact_mod_cast ha
      have := abs_eq_zero.1 this; omega
    cases c1; cases c2
    simp_all
  · rintro rfl
    exact colorDistSq_self c1

/-- The admission test is, extensionally, exactly the comparison of the
weighted distance against the tolerance (also at tolerance 0, where the
source special-cases to exact equality). -/
theorem colorsWithinTolerance_iff_dist_le (tol : ℚ) (c1 c2 : RGBA) :
    colorsWithinTolerance tol c1 c2 ↔
      Real.sqrt (colorDistSq c1 c2 : ℝ) ≤ (tol : ℝ) := by
  unfold colorsWithinTolerance sqrtLeQ
  split
  · rename_i h0
    subst h0
    push_cast
    constructor
    · rintro rfl
      rw [colorDistSq_self]
      simp
    · intro h
      have h1 : Real.sqrt ((colorDistSq c1 c2 : ℚ) : ℝ) = 0 :=
        le_antisymm h (Real.sqrt_nonneg _)
      have h2 : ((colorDistSq c1 c2 : ℚ) : ℝ) ≤ 0 := Real.sqrt_eq_zero'.1 h1
      have h3 : colorDistSq c1 c2 ≤ 0 := by exact_mod_cast h2
      exact (colorDistSq_eq_zero_iff c1 c2).1 (le_antisymm h3 (colorDistSq_nonneg c1 c2))
  · exact Iff.rfl

theorem colorsWithinTolerance_refl {tol : ℚ} (h : 0 ≤ tol) (c : RGBA) :
    colorsWithinTolerance tol c c := by
  rw [colorsWithinTolerance_iff_dist_le, colorDistSq_self]
  simpa using h

theorem colorsWithinTolerance_symm {tol : ℚ} {c1 c2 : RGBA}
    (h : colorsWithinTolerance tol c1 c2) : colorsWithinTolerance tol c2 c1 := by
  rw [colorsWithinTolerance_iff_dist_le] at h ⊢
  rwa [colorDistSq_comm]

theorem colorsWithinTolerance_mono {t1 t2 : ℚ} {c1 c2 : RGBA}
    (h12 : t1 ≤ t2) (h : colorsWithinTolerance t1 c1 c2) :
    colorsWithinTolerance t2 c1 c2 := by
  rw [colorsWithinTolerance_iff_dist_le] at h ⊢
  exact h.trans (by exact_mod_cast h12)

/-! ### Images and the flood fill -/

/-- A raster pixel surface: width, height and the row-major RGBA buffer of
a layer canvas (`ImageData`). -/
structure Image where
  w : ℕ
  h : ℕ
  data : List RGBA
deriving DecidableEq, Repr

/-- Read a pixel of a buffer by linear index. -/
def getPx (data : List RGBA) (i : ℕ) : RGBA := data.getD i dfltPx

/-- The bounds check of the flood-fill loop. -/
def inBounds (w h : ℕ) (p : ℤ × ℤ) : Prop :=
  0 ≤ p.1 ∧ p.1 < (w : ℤ) ∧ 0 ≤ p.2 ∧ p.2 < (h : ℤ)

instance decInBounds (w h : ℕ) (p : ℤ × ℤ) : Decidable (inBounds w h p) := by
  unfold inBounds; infer_instance

/-- Linear pixel index `x + y * width` used by the source. -/
def pixelIndex (w : ℕ) (p : ℤ × ℤ) : ℕ := (p.1 + p.2 * (w : ℤ)).toNat

/-- The four neighbours pushed by the flood loops, listed in pop order (the
source pushes x+1, x-1, y+1, y-1 and pops from the top of the stack). -/
def nbrs (p : ℤ × ℤ) : List (ℤ × ℤ) :=
  [(p.1, p.2 - 1), (p.1, p.2 + 1), (p.1 - 1, p.2), (p.1 + 1, p.2)]

/-- The stack loop of `performFill`.  One recursive call per iteration of
the source `while (stack.length > 0)`; `fuel` is an upper bound on loop
iterations.  Callers pass `1 + 4*w*h`, which is never exhausted: every
iteration pops one entry, and pushes happen only when an unvisited in-bounds
pixel is painted, which occurs at most `w*h` times, four pushes each. -/
def fillLoop (w h : ℕ) (tol : ℚ) (target fill : RGBA) :
    ℕ → List (ℤ × ℤ) → Finset ℕ → List RGBA → Finset ℕ × List RGBA
  | _, [], visited, data => (visited, data)
  | 0, _ :: _, visited, data => (visited, data)
  | fuel + 1, p :: stack, visited, data =>
    if ¬ inBounds w h p then
      fillLoop w h tol target fill fuel stack visited data
    else if pixelIndex w p ∈ visited then
      fillLoop w h tol target fill fuel stack visited data
    else if ¬ colorsWithinTolerance tol (getPx data (pixelIndex w p)) target then
      fillLoop w h tol target fill fuel stack visited data
    else
      fillLoop w h tol target fill fuel (nbrs p ++ stack)
        (insert (pixelIndex w p) visited)
        (data.set (pixelIndex w p) fill)

/-- `KlecksManager.performFill`: floor the click position, read the target
color there, return unchanged when the target is within tolerance of the
fill color at alpha 255, otherwise run the stack flood fill. -/
def performFill (img : Image) (x y : ℚ) (fillColor : RGB) (tol : ℚ) : Image :=
  let seed : ℤ × ℤ := (⌊x⌋, ⌊y⌋)
  let target := getPx img.data (pixelIndex img.w seed)
  let fillRGBA : RGBA := ⟨fillColor.r, fillColor.g, fillColor.b, 255⟩
  if colorsWithinTolerance tol target fillRGBA then img
  else
    { img with data :=
        (fillLoop img.w img.h tol target fillRGBA (1 + 4 * img.w * img.h)
          [seed] ∅ img.data).2 }

/-- Public API `floodFill` delegates to `performFill`. -/
def floodFill (img : Image) (x y : ℚ) (fillColor : RGB) (tol : ℚ) : Image :=
  performFill img x y fillColor tol

/-- The stack loop of `computeFloodRegionMask`: the same traversal as
`fillLoop`, but pixels are only marked, never painted. -/
def maskLoop (w h : ℕ) (tol : ℚ) (target : RGBA) (data : List RGBA) :
    ℕ → List (ℤ × ℤ) → Finset ℕ → Finset ℕ
  | _, [], mask => mask
  | 0, _ :: _, mask => mask
  | fuel + 1, p :: stack, mask =>
    if ¬ inBounds w h p then maskLoop w h tol target data fuel stack mask
    else if pixelIndex w p ∈ mask then maskLoop w h tol target data fuel stack mask
    else if ¬ colorsWithinTolerance tol (getPx data (pixelIndex w p)) target then
      maskLoop w h tol target data fuel stack mask
    else
      maskLoop w h tol target data fuel (nbrs p ++ stack)
        (insert (pixelIndex w p) mask)

/-- `KlecksManager.computeFloodRegionMask`: `none` when the floored seed is
out of bounds, otherwise the set of marked indices together with the matched
target color. -/
def computeFloodRegionMask (img : Image) (x y : ℚ) (tol : ℚ) :
    Option (Finset ℕ × RGBA) :=
  let sx : ℤ := ⌊x⌋
  let sy : ℤ := ⌊y⌋
  if sx < 0 ∨ sy < 0 ∨ (img.w : ℤ) ≤ sx ∨ (img.h : ℤ) ≤ sy then none
  else
    let target := getPx img.data (pixelIndex img.w (sx, sy))
    some (maskLoop img.w img.h tol target img.data (1 + 4 * img.w * img.h)
      [(sx, sy)] ∅, target)

/-- Reachability through the admission test: the pixels connected to the
seed by 4-adjacent, in-bounds pixels whose original color passes
`colorsWithinTolerance` against the target.  This is the specification the
two stack loops are proved against. -/
inductive Reach (w h : ℕ) (tol : ℚ) (target : RGBA) (data : List RGBA)
    (seed : ℤ × ℤ) : (ℤ × ℤ) → Prop
  | base : inBounds w h seed →
      colorsWithinTolerance tol (getPx data (pixelIndex w seed)) target →
      Reach w h tol target data seed seed
  | step {p q : ℤ × ℤ} : Reach w h tol target data seed p → q ∈ nbrs p →
      inBounds w h q →
      colorsWithinTolerance tol (getPx data (pixelIndex w q)) target →
      Reach w h tol target data seed q

theorem Reach.inB {w h : ℕ} {tol : ℚ} {target : RGBA} {data : List RGBA}
    {seed p : ℤ × ℤ} (hr : Reach w h tol target data seed p) :
    inBounds w h p := by
  cases hr with
  | base h1 _ => exact h1
  | step _ _ h1 _ => exact h1

theorem Reach.adm {w h : ℕ} {tol : ℚ} {target : RGBA} {data : List RGBA}
    {seed p : ℤ × ℤ} (hr : Reach w h tol target data seed p) :
    colorsWithinTolerance tol (getPx data (pixelIndex w p)) target := by
  cases hr with
  | base _ h2 => exact h2
  | step _ _ _ h2 => exact h2

/-- Reachability grows with tolerance. -/
theorem Reach.mono {w h : ℕ} {t1 t2 : ℚ} {target : RGBA} {data : List RGBA}
    {seed p : ℤ × ℤ} (h12 : t1 ≤ t2)
    (hr : Reach w h t1 target data seed p) :
    Reach w h t2 target data seed p := by
  induction hr with
  | base h1 h2 => exact Reach.base h1 (colorsWithinTolerance_mono h12 h2)
  | step _ hq hb hadm ih =>
      exact Reach.step ih hq hb (colorsWithinTolerance_mono h12 hadm)

theorem pixelIndex_lt {w h : ℕ} {p : ℤ × ℤ} (hp : inBounds w h p) :
    pixelIndex w p < w * h := by
  obtain ⟨h1, h2, h3, h4⟩ := hp
  unfold pixelIndex
  have hw : (0 : ℤ) ≤ p.2 * (w : ℤ) := mul_nonneg h3 (by positivity)
  have key : p.1 + p.2 * (w : ℤ) < (w : ℤ) * (h : ℤ) := by
    have hle : p.2 ≤ (h : ℤ) - 1 := by omega
    have : p.2 * (w : ℤ) ≤ ((h : ℤ) - 1) * (w : ℤ) :=
      mul_le_mul_of_nonneg_right hle (by positivity)
    nlinarith
  omega

theorem maskClosed_complete {w h : ℕ} {tol : ℚ} {target : RGBA}
    {data : List RGBA} {seed : ℤ × ℤ} (mask : Finset ℕ)
    (h3 : ∀ p, Reach w h tol target data seed p → pixelIndex w p ∈ mask →
      ∀ q ∈ nbrs p, inBounds w h q →
        colorsWithinTolerance tol (getPx data (pixelIndex w q)) target →
        pixelIndex w q ∈ mask)
    (h4 : inBounds w h seed →
      colorsWithinTolerance tol (getPx data (pixelIndex w seed)) target →
      pixelIndex w seed ∈ mask) :
    ∀ p, Reach w h tol target data seed p → pixelIndex w p ∈ mask := by
  intro p hp
  induction hp with
  | base hb ha => exact h4 hb ha
  | step hr hq hb ha ih => exact h3 _ hr ih _ hq hb ha

theorem pixelIndex_inj {w h : ℕ} {p q : ℤ × ℤ} (hp : inBounds w h p)
    (hq : inBounds w h q) (heq : pixelIndex w p = pixelIndex w q) : p = q := by
  obtain ⟨hp1, hp2, hp3, hp4⟩ := hp
  obtain ⟨hq1, hq2, hq3, hq4⟩ := hq
  unfold pixelIndex at heq
  have hwpos : (0 : ℤ) < (w : ℤ) := by omega
  have hpn : (0 : ℤ) ≤ p.1 + p.2 * (w : ℤ) := by
    have := mul_nonneg hp3 hwpos.le; omega
  have hqn : (0 : ℤ) ≤ q.1 + q.2 * (w : ℤ) := by
    have := mul_nonneg hq3 hwpos.le; omega
  have heq' : p.1 + p.2 * (w : ℤ) = q.1 + q.2 * (w : ℤ) := by omega
  have hx : p.1 = q.1 := by
    have h1 : (p.1 + p.2 * (w : ℤ)) % (w : ℤ) = p.1 % (w : ℤ) :=
      Int.add_mul_emod_self
    have h2 : (q.1 + q.2 * (w : ℤ)) % (w : ℤ) = q.1 % (w : ℤ) :=
      Int.add_mul_emod_self
    have h3 : p.1 % (w : ℤ) = p.1 := Int.emod_eq_of_lt hp1 hp2
    have h4 : q.1 % (w : ℤ) = q.1 := Int.emod_eq_of_lt hq1 hq2
    rw [heq', h2, h4] at h1
    omega
  have hy : p.2 = q.2 := by
    have : p.2 * (w : ℤ) = q.2 * (w : ℤ) := by omega
    exact mul_right_cancel₀ (by omega) this
  exact Prod.ext hx hy

/-- Invariant-based characterization of the `computeFloodRegionMask` stack
loop: given enough fuel and the loop invariants, the final mask is exactly
the set of indices of reachable pixels. -/
theorem maskLoop_mem_iff {w h : ℕ} {tol : ℚ} {target : RGBA}
    {data : List RGBA} {seed : ℤ × ℤ} :
    ∀ (fuel : ℕ) (stack : List (ℤ × ℤ)) (mask : Finset ℕ),
      stack.length + 4 * ((Finset.range (w * h)) \ mask).card ≤ fuel →
      (∀ i ∈ mask, ∃ p, Reach w h tol target data seed p ∧ pixelIndex w p = i) →
      (∀ q ∈ stack, q = seed ∨
        ∃ p, Reach w h tol target data seed p ∧ q ∈ nbrs p) →
      (∀ p, Reach w h tol target data seed p → pixelIndex w p ∈ mask →
        ∀ q ∈ nbrs p, inBounds w h q →
          colorsWithinTolerance tol (getPx data (pixelIndex w q)) target →
          pixelIndex w q ∈ mask ∨ q ∈ stack) →
      (inBounds w h seed →
        colorsWithinTolerance tol (getPx data (pixelIndex w seed)) target →
        pixelIndex w seed ∈ mask ∨ seed ∈ stack) →
      ∀ i, i ∈ maskLoop w h tol target data fuel stack mask ↔
        ∃ p, Reach w h tol target data seed p ∧ pixelIndex w p = i := by
  intro fuel
  induction fuel with
  | zero =>
      intro stack mask hfuel h1 h2 h3 h4 i
      have hst : stack = [] := List.eq_nil_of_length_eq_zero (by omega)
      subst hst
      have hres : maskLoop w h tol target data 0 [] mask = mask := rfl
      rw [hres]
      constructor
      · exact h1 i
      · rintro ⟨p, hp, rfl⟩
        refine maskClosed_complete mask ?_ ?_ p hp
        · intro p' hr hidx q hq hbq hadmq
          rcases h3 p' hr hidx q hq hbq hadmq with hm | hm
          · exact hm
          · simp at hm
        · intro hbs hadms
          rcases h4 hbs hadms with hm | hm
          · exact hm
          · simp at hm
  | succ fuel IH =>
      intro stack mask hfuel h1 h2 h3 h4 i
      match stack with
      | [] =>
          have hres : maskLoop w h tol target data (fuel + 1) [] mask = mask := rfl
          rw [hres]
          constructor
          · exact h1 i
          · rintro ⟨p, hp, rfl⟩
            refine maskClosed_complete mask ?_ ?_ p hp
            · intro p' hr hidx q hq hbq hadmq
              rcases h3 p' hr hidx q hq hbq hadmq with hm | hm
              · exact hm
              · simp at hm
            · intro hbs hadms
              rcases h4 hbs hadms with hm | hm
              · exact hm
              · simp at hm
      | p :: rest =>
          by_cases hb : inBounds w h p
          · by_cases hmem : pixelIndex w p ∈ mask
            · -- already visited: skip
              have hres : maskLoop w h tol target data (fuel + 1) (p :: rest) mask =
                  maskLoop w h tol target data fuel rest mask := by
                simp only [maskLoop, if_neg (not_not_intro hb), if_pos hmem]
              rw [hres]
              refine IH rest mask (by simp at hfuel ⊢; omega) h1 ?_ ?_ ?_ i
              · intro q hq; exact h2 q (List.mem_cons_of_mem _ hq)
              · intro p' hr hidx q hq hbq hadmq
                rcases h3 p' hr hidx q hq hbq hadmq with hm | hm
                · exact Or.inl hm
                · rcases List.mem_cons.1 hm with rfl | hm'
                  · exact Or.inl hmem
                  · exact Or.inr hm'
              · intro hbs hadms
                rcases h4 hbs hadms with hm | hm
                · exact Or.inl hm
                · rcases List.mem_cons.1 hm with rfl | hm'
                  · exact Or.inl hmem
                  · exact Or.inr hm'
            · by_cases hadm :
                colorsWithinTolerance tol (getPx data (pixelIndex w p)) target
              · -- paint p and push its neighbours
                have hres : maskLoop w h tol target data (fuel + 1) (p :: rest) mask =
                    maskLoop w h tol target data fuel (nbrs p ++ rest)
                      (insert (pixelIndex w p) mask) := by
                  simp only [maskLoop, if_neg (not_not_intro hb), if_neg hmem,
                    if_neg (not_not_intro hadm)]
                rw [hres]
                have hreach : Reach w h tol target data seed p := by
                  rcases h2 p (List.mem_cons_self p rest) with rfl | ⟨p0, hp0, hn⟩
                  · exact Reach.base hb hadm
                  · exact Reach.step hp0 hn hb hadm
                have hcard : ((Finset.range (w * h)) \ insert (pixelIndex w p) mask).card + 1 =
                    ((Finset.range (w * h)) \ mask).card := by
                  rw [Finset.sdiff_insert]
                  rw [Finset.card_erase_of_mem
                    (Finset.mem_sdiff.2 ⟨Finset.mem_range.2 (pixelIndex_lt hb), hmem⟩)]
                  have hpos : 0 < ((Finset.range (w * h)) \ mask).card :=
                    Finset.card_pos.2 ⟨pixelIndex w p,
                      Finset.mem_sdiff.2 ⟨Finset.mem_range.2 (pixelIndex_lt hb), hmem⟩⟩
                  omega
                refine IH (nbrs p ++ rest) (insert (pixelIndex w p) mask) ?_ ?_ ?_ ?_ ?_ i
                · have hlen : (nbrs p ++ rest).length = rest.length + 4 := by
                    simp [nbrs]
                  simp only [hlen]
                  simp only [List.length_cons] at hfuel
                  omega
                · intro j hj
                  rcases Finset.mem_insert.1 hj with rfl | hj'
                  · exact ⟨p, hreach, rfl⟩
                  · exact h1 j hj'
                · intro q hq
                  rcases List.mem_append.1 hq with hq' | hq'
                  · exact Or.inr ⟨p, hreach, hq'⟩
                  · exact h2 q (List.mem_cons_of_mem _ hq')
                · intro p' hr hidx q hq hbq hadmq
                  rcases Finset.mem_insert.1 hidx with heq | hidx'
                  · have : p' = p := pixelIndex_inj hr.inB hb heq
                    subst this
                    exact Or.inr (List.mem_append.2 (Or.inl hq))
                  · rcases h3 p' hr hidx' q hq hbq hadmq with hm | hm
                    · exact Or.inl (Finset.mem_insert_of_mem hm)
                    · rcases List.mem_cons.1 hm with rfl | hm'
                      · exact Or.inl (Finset.mem_insert_self _ _)
                      · exact Or.inr (List.mem_append.2 (Or.inr hm'))
                · intro hbs hadms
                  rcases h4 hbs hadms with hm | hm
                  · exact Or.inl (Finset.mem_insert_of_mem hm)
                  · rcases List.mem_cons.1 hm with rfl | hm'
                    · exact Or.inl (Finset.mem_insert_self _ _)
                    · exact Or.inr (List.mem_append.2 (Or.inr hm'))
              · -- admission fails: skip
                have hres : maskLoop w h tol target data (fuel + 1) (p :: rest) mask =
                    maskLoop w h tol target data fuel rest mask := by
                  simp only [maskLoop, if_neg (not_not_intro hb), if_neg hmem,
                    if_pos hadm]
                rw [hres]
                refine IH rest mask (by simp at hfuel ⊢; omega) h1 ?_ ?_ ?_ i
                · intro q hq; exact h2 q (List.mem_cons_of_mem _ hq)
                · intro p' hr hidx q hq hbq hadmq
                  rcases h3 p' hr hidx q hq hbq hadmq with hm | hm
                  · exact Or.inl hm
                  · rcases List.mem_cons.1 hm with rfl | hm'
                    · exact absurd hadmq hadm
                    · exact Or.inr hm'
                · intro hbs hadms
                  rcases h4 hbs hadms with hm | hm
                  · exact Or.inl hm
                  · rcases List.mem_cons.1 hm with rfl | hm'
                    · exact absurd hadms hadm
                    · exact Or.inr hm'
          · -- out of bounds: skip
            have hres : maskLoop w h tol target data (fuel + 1) (p :: rest) mask =
                maskLoop w h tol target data fuel rest mask := by
              simp only [maskLoop, if_pos hb]
            rw [hres]
            refine IH rest mask (by simp at hfuel ⊢; omega) h1 ?_ ?_ ?_ i
            · intro q hq; exact h2 q (List.mem_cons_of_mem _ hq)
            · intro p' hr hidx q hq hbq hadmq
              rcases h3 p' hr hidx q hq hbq hadmq with hm | hm
              · exact Or.inl hm
              · rcases List.mem_cons.1 hm with rfl | hm'
                · exact absurd hbq hb
                · exact Or.inr hm'
            · intro hbs hadms
              rcases h4 hbs hadms with hm | hm
              · exact Or.inl hm
              · rcases List.mem_cons.1 hm with rfl | hm'
                · exact absurd hbs hb
                · exact Or.inr hm'

/-- The flood region of a fill/mask call: result of the mask loop started on
the floored seed with full fuel. -/
def regionSet (img : Image) (x y : ℚ) (tol : ℚ) : Finset ℕ :=
  maskLoop img.w img.h tol (getPx img.data (pixelIndex img.w (⌊x⌋, ⌊y⌋)))
    img.data (1 + 4 * img.w * img.h) [(⌊x⌋, ⌊y⌋)] ∅

theorem regionSet_mem_iff (img : Image) (x y : ℚ) (tol : ℚ) (i : ℕ) :
    i ∈ regionSet img x y tol ↔
      ∃ p, Reach img.w img.h tol
          (getPx img.data (pixelIndex img.w (⌊x⌋, ⌊y⌋))) img.data
          (⌊x⌋, ⌊y⌋) p ∧ pixelIndex img.w p = i := by
  refine maskLoop_mem_iff (1 + 4 * img.w * img.h) [(⌊x⌋, ⌊y⌋)] ∅ ?_ ?_ ?_ ?_ ?_ i
  · simp [Nat.mul_assoc]
  · simp
  · intro q hq
    rcases List.mem_cons.1 hq with rfl | hq'
    · exact Or.inl rfl
    · simp at hq'
  · intro p _ hidx
    simp at hidx
  · intro _ _
    exact Or.inr (List.mem_cons_self _ _)

/-- The region grows with the tolerance. -/
theorem regionSet_mono (img : Image) (x y : ℚ) {t1 t2 : ℚ} (h12 : t1 ≤ t2)
    {i : ℕ} (hi : i ∈ regionSet img x y t1) : i ∈ regionSet img x y t2 := by
  rw [regionSet_mem_iff] at hi ⊢
  obtain ⟨p, hp, rfl⟩ := hi
  exact ⟨p, hp.mono h12, rfl⟩

/-- The fill loop simulates the mask loop: it computes the same visited set,
and its buffer is the original buffer painted with the fill color exactly on
the visited set. -/
theorem fillLoop_spec {w h : ℕ} {tol : ℚ} {target fill : RGBA}
    {data : List RGBA} (hwf : data.length = w * h) :
    ∀ (fuel : ℕ) (stack : List (ℤ × ℤ)) (mask : Finset ℕ) (buf : List RGBA),
      buf.length = data.length →
      (∀ i, getPx buf i = if i ∈ mask then fill else getPx data i) →
      (fillLoop w h tol target fill fuel stack mask buf).1 =
          maskLoop w h tol target data fuel stack mask ∧
      (fillLoop w h tol target fill fuel stack mask buf).2.length = data.length ∧
      ∀ i, getPx (fillLoop w h tol target fill fuel stack mask buf).2 i =
        if i ∈ maskLoop w h tol target data fuel stack mask then fill
        else getPx data i := by
  intro fuel
  induction fuel with
  | zero =>
      intro stack mask buf hlen hbuf
      match stack with
      | [] => exact ⟨rfl, hlen, hbuf⟩
      | p :: rest => exact ⟨rfl, hlen, hbuf⟩
  | succ fuel IH =>
      intro stack mask buf hlen hbuf
      match stack with
      | [] => exact ⟨rfl, hlen, hbuf⟩
      | p :: rest =>
          by_cases hb : inBounds w h p
          · by_cases hmem : pixelIndex w p ∈ mask
            · have hresM : maskLoop w h tol target data (fuel + 1) (p :: rest) mask =
                  maskLoop w h tol target data fuel rest mask := by
                simp only [maskLoop, if_neg (not_not_intro hb), if_pos hmem]
              have hresF : fillLoop w h tol target fill (fuel + 1) (p :: rest) mask buf =
                  fillLoop w h tol target fill fuel rest mask buf := by
                simp only [fillLoop, if_neg (not_not_intro hb), if_pos hmem]
              rw [hresM, hresF]
              exact IH rest mask buf hlen hbuf
            · have hread : getPx buf (pixelIndex w p) = getPx data (pixelIndex w p) := by
                rw [hbuf, if_neg hmem]
              by_cases hadm :
                colorsWithinTolerance tol (getPx data (pixelIndex w p)) target
              · have hresM : maskLoop w h tol target data (fuel + 1) (p :: rest) mask =
                    maskLoop w h tol target data fuel (nbrs p ++ rest)
                      (insert (pixelIndex w p) mask) := by
                  simp only [maskLoop, if_neg (not_not_intro hb), if_neg hmem,
                    if_neg (not_not_intro hadm)]
                have hadm' :
                    colorsWithinTolerance tol (getPx buf (pixelIndex w p)) target := by
                  rwa [hread]
                have hresF : fillLoop w h tol target fill (fuel + 1) (p :: rest) mask buf =
                    fillLoop w h tol target fill fuel (nbrs p ++ rest)
                      (insert (pixelIndex w p) mask)
                      (buf.set (pixelIndex w p) fill) := by
                  simp only [fillLoop, if_neg (not_not_intro hb), if_neg hmem,
                    if_neg (not_not_intro hadm')]
                rw [hresM, hresF]
                refine IH (nbrs p ++ rest) (insert (pixelIndex w p) mask)
                  (buf.set (pixelIndex w p) fill) (by simpa using hlen) ?_
                intro i
                by_cases hip : i = pixelIndex w p
                · have hlt : pixelIndex w p < buf.length := by
                    rw [hlen, hwf]; exact pixelIndex_lt hb
                  unfold getPx
                  rw [hip, List.getD_eq_getElem?_getD, List.getElem?_set_self hlt]
                  simp
                · unfold getPx
                  rw [List.getD_eq_getElem?_getD, List.getElem?_set_ne (by omega)]
                  have hprev := hbuf i
                  unfold getPx at hprev
                  rw [List.getD_eq_getElem?_getD] at hprev
                  rw [hprev]
                  have hcond : (i ∈ insert (pixelIndex w p) mask) ↔ i ∈ mask := by
                    simp [Finset.mem_insert, hip]
                  simp only [hcond]
              · have hadm' :
                    ¬ colorsWithinTolerance tol (getPx buf (pixelIndex w p)) target := by
                  rwa [hread]
                have hresM : maskLoop w h tol target data (fuel + 1) (p :: rest) mask =
                    maskLoop w h tol target data fuel rest mask := by
                  simp only [maskLoop, if_neg (not_not_intro hb), if_neg hmem,
                    if_pos hadm]
                have hresF : fillLoop w h tol target fill (fuel + 1) (p :: rest) mask buf =
                    fillLoop w h tol target fill fuel rest mask buf := by
                  simp only [fillLoop, if_neg (not_not_intro hb), if_neg hmem,
                    if_pos hadm']
                rw [hresM, hresF]
                exact IH rest mask buf hlen hbuf
          · have hresM : maskLoop w h tol target data (fuel + 1) (p :: rest) mask =
                maskLoop w h tol target data fuel rest mask := by
              simp only [maskLoop, if_pos hb]
            have hresF : fillLoop w h tol target fill (fuel + 1) (p :: rest) mask buf =
                fillLoop w h tol target fill fuel rest mask buf := by
              simp only [fillLoop, if_pos hb]
            rw [hresM, hresF]
            exact IH rest mask buf hlen hbuf

/-- The fill color at full alpha, as `performFill` builds it. -/
def fillWithAlpha (c : RGB) : RGBA := ⟨c.r, c.g, c.b, 255⟩

/-- The target color read at the floored seed by `performFill` and
`computeFloodRegionMask`. -/
def targetColor (img : Image) (x y : ℚ) : RGBA :=
  getPx img.data (pixelIndex img.w (⌊x⌋, ⌊y⌋))

theorem performFill_of_within {img : Image} {x y : ℚ} {c : RGB} {tol : ℚ}
    (hyes : colorsWithinTolerance tol (targetColor img x y) (fillWithAlpha c)) :
    performFill img x y c tol = img := by
  unfold performFill
  unfold targetColor fillWithAlpha at hyes
  simp only []
  rw [if_pos hyes]

theorem performFill_w (img : Image) (x y : ℚ) (c : RGB) (tol : ℚ) :
    (performFill img x y c tol).w = img.w := by
  unfold performFill
  simp only []
  split <;> rfl

theorem performFill_h (img : Image) (x y : ℚ) (c : RGB) (tol : ℚ) :
    (performFill img x y c tol).h = img.h := by
  unfold performFill
  simp only []
  split <;> rfl

theorem performFill_getPx {img : Image} {x y : ℚ} {c : RGB} {tol : ℚ}
    (hwf : img.data.length = img.w * img.h)
    (hno : ¬ colorsWithinTolerance tol (targetColor img x y) (fillWithAlpha c)) :
    (performFill img x y c tol).data.length = img.data.length ∧
    ∀ i, getPx (performFill img x y c tol).data i =
      if i ∈ regionSet img x y tol then fillWithAlpha c else getPx img.data i := by
  unfold performFill
  unfold targetColor fillWithAlpha at hno
  simp only []
  rw [if_neg hno]
  have hspec := @fillLoop_spec img.w img.h tol
    (getPx img.data (pixelIndex img.w (⌊x⌋, ⌊y⌋))) (fillWithAlpha c) img.data hwf
    (1 + 4 * img.w * img.h) [(⌊x⌋, ⌊y⌋)] ∅ img.data rfl (by simp)
  exact ⟨hspec.2.1, hspec.2.2⟩

theorem performFill_mutates_iff {img : Image} {x y : ℚ} {c : RGB} {tol : ℚ}
    (hwf : img.data.length = img.w * img.h)
    (hno : ¬ colorsWithinTolerance tol (targetColor img x y) (fillWithAlpha c))
    (i : ℕ) :
    getPx (performFill img x y c tol).data i ≠ getPx img.data i ↔
      (i ∈ regionSet img x y tol ∧ getPx img.data i ≠ fillWithAlpha c) := by
  rw [(performFill_getPx hwf hno).2 i]
  by_cases hm : i ∈ regionSet img x y tol
  · rw [if_pos hm]
    constructor
    · intro hne
      exact ⟨hm, fun hEq => hne hEq.symm⟩
    · rintro ⟨_, hne⟩ hEq
      exact hne hEq.symm
  · rw [if_neg hm]
    simp [hm]

/-- Pixels of the flood region never already hold the fill color when the
early no-op return did not trigger (the distance metric is symmetric). -/
theorem region_px_ne_fill {img : Image} {x y : ℚ} {c : RGB} {tol : ℚ}
    (hno : ¬ colorsWithinTolerance tol (targetColor img x y) (fillWithAlpha c))
    {i : ℕ} (hi : i ∈ regionSet img x y tol) :
    getPx img.data i ≠ fillWithAlpha c := by
  intro hEq
  rw [regionSet_mem_iff] at hi
  obtain ⟨p, hp, rfl⟩ := hi
  have hadm := hp.adm
  rw [hEq] at hadm
  exact hno (colorsWithinTolerance_symm hadm)

theorem computeFloodRegionMask_eq_some {img : Image} {x y : ℚ} {tol : ℚ}
    (hin : inBounds img.w img.h (⌊x⌋, ⌊y⌋)) :
    computeFloodRegionMask img x y tol =
      some (regionSet img x y tol, targetColor img x y) := by
  obtain ⟨h1, h2, h3, h4⟩ := hin
  unfold computeFloodRegionMask regionSet targetColor
  simp only []
  rw [if_neg (by push_neg; exact ⟨h1, h3, by omega, by omega⟩)]

theorem seed_mem_regionSet {img : Image} {x y : ℚ} {tol : ℚ} (h0 : 0 ≤ tol)
    (hin : inBounds img.w img.h (⌊x⌋, ⌊y⌋)) :
    pixelIndex img.w (⌊x⌋, ⌊y⌋) ∈ regionSet img x y tol := by
  rw [regionSet_mem_iff]
  exact ⟨(⌊x⌋, ⌊y⌋), Reach.base hin (colorsWithinTolerance_refl h0 _), rfl⟩

theorem floodFill_eq_performFill (img : Image) (x y : ℚ) (c : RGB) (tol : ℚ) :
    floodFill img x y c tol = performFill img x y c tol := rfl

/-! ### Claim C1: the color-distance admission formula -/

/-- C1, counterexample: the claim asserts that tolerance 76 admits the pair
(255,0,0,255) and (0,0,0,255).  It does not: the computed distance is
sqrt(0.299·255²) ≈ 139.44, which exceeds 76. -/
theorem claim_C1_counterexample :
    ¬ colorsWithinTolerance 76 ⟨255, 0, 0, 255⟩ ⟨0, 0, 0, 255⟩ := by decide

/-- C1 (amended): the admission test admits a pixel exactly when
sqrt(0.299 Δr² + 0.587 Δg² + 0.114 Δb² + 0.1 Δa²) is at most the tolerance;
for c1=(255,0,0,255), c2=(0,0,0,255) the squared distance is 0.299·255²
(distance ≈ 139.44, not ≈ 75.7), so tolerance 75 excludes the pair,
tolerance 76 also excludes it, and the pair is first included at
tolerance 140 (139 still excludes). -/
theorem claim_C1_color_distance_formula :
    (∀ (tol : ℚ) (c1 c2 : RGBA), colorsWithinTolerance tol c1 c2 ↔
      Real.sqrt (colorDistSq c1 c2 : ℝ) ≤ (tol : ℝ)) ∧
    colorDistSq ⟨255, 0, 0, 255⟩ ⟨0, 0, 0, 255⟩ = 299 / 1000 * 255 ^ 2 ∧
    ¬ colorsWithinTolerance 75 ⟨255, 0, 0, 255⟩ ⟨0, 0, 0, 255⟩ ∧
    ¬ colorsWithinTolerance 139 ⟨255, 0, 0, 255⟩ ⟨0, 0, 0, 255⟩ ∧
    colorsWithinTolerance 140 ⟨255, 0, 0, 255⟩ ⟨0, 0, 0, 255⟩ :=
  ⟨colorsWithinTolerance_iff_dist_le,
   by norm_num [colorDistSq],
   by decide, by decide, by decide⟩

/-! ### Claim C3: tolerance monotonicity of the flood fill -/

/-- C3, counterexample: monotonicity fails at the early no-op return.  On
the 1×1 black image, filling with (10,0,0) at tolerance 0 mutates the
pixel, while at the larger tolerance 6 the early return fires (distance
sqrt(0.299·100) ≈ 5.47 ≤ 6) and nothing is mutated. -/
theorem claim_C3_counterexample :
    getPx (floodFill ⟨1, 1, [⟨0, 0, 0, 255⟩]⟩ 0 0 ⟨10, 0, 0⟩ 0).data 0 ≠
        getPx (⟨1, 1, [⟨0, 0, 0, 255⟩]⟩ : Image).data 0 ∧
    getPx (floodFill ⟨1, 1, [⟨0, 0, 0, 255⟩]⟩ 0 0 ⟨10, 0, 0⟩ 6).data 0 =
        getPx (⟨1, 1, [⟨0, 0, 0, 255⟩]⟩ : Image).data 0 ∧
    (0 : ℚ) ≤ 6 := by
  refine ⟨by decide, by decide, by norm_num⟩

/-- C3 (amended): for a fixed starting image, in-bounds seed and fill
color, and tolerances 0 ≤ t1 ≤ t2 such that the t2 call does not take the
early no-op return (the target color is not within t2 of the fill color),
every pixel mutated by the fill at tolerance t1 is also mutated by the fill
at tolerance t2. -/
theorem claim_C3_tolerance_monotonicity (img : Image) (x y : ℚ) (c : RGB)
    {t1 t2 : ℚ} (hwf : img.data.length = img.w * img.h)
    (_hin : inBounds img.w img.h (⌊x⌋, ⌊y⌋)) (h12 : t1 ≤ t2)
    (hno2 : ¬ colorsWithinTolerance t2 (targetColor img x y) (fillWithAlpha c)) :
    ∀ i, getPx (floodFill img x y c t1).data i ≠ getPx img.data i →
      getPx (floodFill img x y c t2).data i ≠ getPx img.data i := by
  have hno1 : ¬ colorsWithinTolerance t1 (targetColor img x y) (fillWithAlpha c) :=
    fun hy => hno2 (colorsWithinTolerance_mono h12 hy)
  intro i hi
  rw [floodFill_eq_performFill] at hi ⊢
  rw [performFill_mutates_iff hwf hno1 i] at hi
  rw [performFill_mutates_iff hwf hno2 i]
  exact ⟨regionSet_mono img x y h12 hi.1, hi.2⟩

/-- C3 witness: the amended monotonicity applied on a concrete 2×2 white
image with black fill, t1 = 0, t2 = 1. -/
theorem claim_C3_tolerance_monotonicity_witness :
    ((⟨2, 2, [⟨255, 255, 255, 255⟩, ⟨255, 255, 255, 255⟩, ⟨255, 255, 255, 255⟩,
        ⟨255, 255, 255, 255⟩]⟩ : Image).data.length = 2 * 2) ∧
    inBounds 2 2 (⌊(0 : ℚ)⌋, ⌊(0 : ℚ)⌋) ∧ ((0 : ℚ) ≤ 1) ∧
    ¬ colorsWithinTolerance 1
      (targetColor ⟨2, 2, [⟨255, 255, 255, 255⟩, ⟨255, 255, 255, 255⟩,
        ⟨255, 255, 255, 255⟩, ⟨255, 255, 255, 255⟩]⟩ 0 0) (fillWithAlpha ⟨0, 0, 0⟩) ∧
    (∀ i, getPx (floodFill ⟨2, 2, [⟨255, 255, 255, 255⟩, ⟨255, 255, 255, 255⟩,
        ⟨255, 255, 255, 255⟩, ⟨255, 255, 255, 255⟩]⟩ 0 0 ⟨0, 0, 0⟩ 0).data i ≠
        getPx (⟨2, 2, [⟨255, 255, 255, 255⟩, ⟨255, 255, 255, 255⟩,
          ⟨255, 255, 255, 255⟩, ⟨255, 255, 255, 255⟩]⟩ : Image).data i →
      getPx (floodFill ⟨2, 2, [⟨255, 255, 255, 255⟩, ⟨255, 255, 255, 255⟩,
        ⟨255, 255, 255, 255⟩, ⟨255, 255, 255, 255⟩]⟩ 0 0 ⟨0, 0, 0⟩ 1).data i ≠
        getPx (⟨2, 2, [⟨255, 255, 255, 255⟩, ⟨255, 255, 255, 255⟩,
          ⟨255, 255, 255, 255⟩, ⟨255, 255, 255, 255⟩]⟩ : Image).data i) :=
  ⟨rfl, by decide, by norm_num,
   by decide,
   claim_C3_tolerance_monotonicity _ 0 0 _ rfl (by decide) (by norm_num) (by decide)⟩

/-! ### Claim C4: mask/fill agreement -/

/-- C4, counterexample: on a 1×1 image whose pixel already has the fill
color, `floodFill` takes the early no-op return and mutates nothing, while
`computeFloodRegionMask` still returns a mask containing the seed — so the
mask true-set differs from the mutated set for this fill color. -/
theorem claim_C4_counterexample :
    floodFill ⟨1, 1, [⟨5, 5, 5, 255⟩]⟩ 0 0 ⟨5, 5, 5⟩ 0 = ⟨1, 1, [⟨5, 5, 5, 255⟩]⟩ ∧
    ∃ m t, computeFloodRegionMask ⟨1, 1, [⟨5, 5, 5, 255⟩]⟩ 0 0 0 = some (m, t) ∧
      (0 : ℕ) ∈ m ∧
      getPx (floodFill ⟨1, 1, [⟨5, 5, 5, 255⟩]⟩ 0 0 ⟨5, 5, 5⟩ 0).data 0 =
        getPx (⟨1, 1, [⟨5, 5, 5, 255⟩]⟩ : Image).data 0 :=
  ⟨by decide, _, _, rfl, by decide, by decide⟩

/-- C4 (amended): when the fill does not take its early no-op return, the
true-set of `computeFloodRegionMask` is exactly the set of pixels mutated
by `floodFill` with the same seed and tolerance on the same image. -/
theorem claim_C4_mask_fill_agreement (img : Image) (x y : ℚ) (c : RGB)
    (tol : ℚ) (hwf : img.data.length = img.w * img.h)
    (hin : inBounds img.w img.h (⌊x⌋, ⌊y⌋))
    (hno : ¬ colorsWithinTolerance tol (targetColor img x y) (fillWithAlpha c)) :
    ∃ mask t, computeFloodRegionMask img x y tol = some (mask, t) ∧
      ∀ i, i ∈ mask ↔
        getPx (floodFill img x y c tol).data i ≠ getPx img.data i := by
  refine ⟨regionSet img x y tol, targetColor img x y,
    computeFloodRegionMask_eq_some hin, ?_⟩
  intro i
  rw [floodFill_eq_performFill, performFill_mutates_iff hwf hno i]
  constructor
  · intro hi
    exact ⟨hi, region_px_ne_fill hno hi⟩
  · exact fun hi => hi.1

/-- C4 witness: agreement on a concrete 2×2 image whose left column is
white and right column red, black fill, tolerance 0. -/
theorem claim_C4_mask_fill_agreement_witness :
    ((⟨2, 2, [⟨255, 255, 255, 255⟩, ⟨255, 0, 0, 255⟩, ⟨255, 255, 255, 255⟩,
        ⟨255, 0, 0, 255⟩]⟩ : Image).data.length = 2 * 2) ∧
    inBounds 2 2 (⌊(0 : ℚ)⌋, ⌊(0 : ℚ)⌋) ∧
    ¬ colorsWithinTolerance 0
      (targetColor ⟨2, 2, [⟨255, 255, 255, 255⟩, ⟨255, 0, 0, 255⟩,
        ⟨255, 255, 255, 255⟩, ⟨255, 0, 0, 255⟩]⟩ 0 0) (fillWithAlpha ⟨0, 0, 0⟩) ∧
    (∃ mask t, computeFloodRegionMask ⟨2, 2, [⟨255, 255, 255, 255⟩,
        ⟨255, 0, 0, 255⟩, ⟨255, 255, 255, 255⟩, ⟨255, 0, 0, 255⟩]⟩ 0 0 0 =
        some (mask, t) ∧
      ∀ i, i ∈ mask ↔
        getPx (floodFill ⟨2, 2, [⟨255, 255, 255, 255⟩, ⟨255, 0, 0, 255⟩,
          ⟨255, 255, 255, 255⟩, ⟨255, 0, 0, 255⟩]⟩ 0 0 ⟨0, 0, 0⟩ 0).data i ≠
          getPx (⟨2, 2, [⟨255, 255, 255, 255⟩, ⟨255, 0, 0, 255⟩,
            ⟨255, 255, 255, 255⟩, ⟨255, 0, 0, 255⟩]⟩ : Image).data i) :=
  ⟨rfl, by decide, by decide,
   claim_C4_mask_fill_agreement _ 0 0 _ 0 rfl (by decide) (by decide)⟩

/-! ### Claim C5: the idempotent no-op fill -/

/-- C5: if the target color is within tolerance of the fill color, the fill
returns immediately and changes nothing; consequently running the same fill
twice in a row gives exactly the pixels of the first run — the second call
is a true no-op. -/
theorem claim_C5_idempotent_noop_fill (img : Image) (x y : ℚ) (c : RGB)
    (tol : ℚ) (hwf : img.data.length = img.w * img.h)
    (hin : inBounds img.w img.h (⌊x⌋, ⌊y⌋)) (h0 : 0 ≤ tol) :
    (colorsWithinTolerance tol (targetColor img x y) (fillWithAlpha c) →
      floodFill img x y c tol = img) ∧
    floodFill (floodFill img x y c tol) x y c tol = floodFill img x y c tol := by
  refine ⟨fun hyes => performFill_of_within hyes, ?_⟩
  by_cases hyes : colorsWithinTolerance tol (targetColor img x y) (fillWithAlpha c)
  · rw [floodFill_eq_performFill img, performFill_of_within hyes,
      floodFill_eq_performFill, performFill_of_within hyes]
  · have hfix : targetColor (floodFill img x y c tol) x y = fillWithAlpha c := by
      unfold targetColor
      rw [floodFill_eq_performFill, performFill_w]
      rw [(performFill_getPx hwf hyes).2 (pixelIndex img.w (⌊x⌋, ⌊y⌋))]
      rw [if_pos (seed_mem_regionSet h0 hin)]
    rw [show floodFill (floodFill img x y c tol) x y c tol =
        performFill (floodFill img x y c tol) x y c tol from rfl]
    rw [performFill_of_within (by
      rw [hfix]; exact colorsWithinTolerance_refl h0 _)]

/-- C5 witness: the idempotent fill on a concrete 2×2 white image with
black fill at tolerance 0. -/
theorem claim_C5_idempotent_noop_fill_witness :
    ((⟨2, 2, [⟨255, 255, 255, 255⟩, ⟨255, 255, 255, 255⟩, ⟨255, 255, 255, 255⟩,
        ⟨255, 255, 255, 255⟩]⟩ : Image).data.length = 2 * 2) ∧
    inBounds 2 2 (⌊(0 : ℚ)⌋, ⌊(0 : ℚ)⌋) ∧ ((0 : ℚ) ≤ 0) ∧
    ((colorsWithinTolerance 0
        (targetColor ⟨2, 2, [⟨255, 255, 255, 255⟩, ⟨255, 255, 255, 255⟩,
          ⟨255, 255, 255, 255⟩, ⟨255, 255, 255, 255⟩]⟩ 0 0)
        (fillWithAlpha ⟨0, 0, 0⟩) →
      floodFill ⟨2, 2, [⟨255, 255, 255, 255⟩, ⟨255, 255, 255, 255⟩,
        ⟨255, 255, 255, 255⟩, ⟨255, 255, 255, 255⟩]⟩ 0 0 ⟨0, 0, 0⟩ 0 =
        ⟨2, 2, [⟨255, 255, 255, 255⟩, ⟨255, 255, 255, 255⟩,
          ⟨255, 255, 255, 255⟩, ⟨255, 255, 255, 255⟩]⟩) ∧
    floodFill (floodFill ⟨2, 2, [⟨255, 255, 255, 255⟩, ⟨255, 255, 255, 255⟩,
        ⟨255, 255, 255, 255⟩, ⟨255, 255, 255, 255⟩]⟩ 0 0 ⟨0, 0, 0⟩ 0) 0 0 ⟨0, 0, 0⟩ 0 =
      floodFill ⟨2, 2, [⟨255, 255, 255, 255⟩, ⟨255, 255, 255, 255⟩,
        ⟨255, 255, 255, 255⟩, ⟨255, 255, 255, 255⟩]⟩ 0 0 ⟨0, 0, 0⟩ 0) :=
  ⟨rfl, by decide, le_refl 0,
   claim_C5_idempotent_noop_fill _ 0 0 _ 0 rfl (by decide) (le_refl 0)⟩

/-! ### The brush manager: stroke lifecycle -/

/-- One rasterized stroke sample: the position and pressure handed to
`applyStrokePoint`. -/
structure Sample where
  x : ℚ
  y : ℚ
  pressure : ℚ
deriving DecidableEq, Repr

/-- The numeric brush settings of `BrushManager` (the `type` and `shape`
strings select a renderer and do not affect which samples get recorded). -/
structure IBrushSettings where
  size : ℚ
  hardness : ℚ
  opacity : ℚ
  flow : ℚ
  rotation : ℚ
  spacing : ℚ
  color : RGB
deriving DecidableEq, Repr

/-- The record `BrushManager` keeps for the active stroke
(`IBrushStroke`). -/
structure Stroke where
  points : List (ℚ × ℚ)
  pressure : List ℚ
  brush : String
  size : ℚ
  opacity : ℚ
  color : RGB
  hardness : ℚ
  rotation : ℚ
  flow : ℚ
deriving DecidableEq, Repr

/-- The stroke-lifecycle state of `BrushManager`, together with the log of
samples rasterized so far: the embedding records each sample that
`applyStrokePoint` paints instead of mutating canvas pixels, since the
claims are about which samples get rasterized. -/
structure BrushState where
  currentBrush : String
  brushSettings : IBrushSettings
  isDrawing : Bool
  currentStroke : Option Stroke
  raster : List Sample
deriving DecidableEq, Repr

/-- The initial field values of `BrushManager`. -/
def initialBrushSettings : IBrushSettings :=
  { size := 10, hardness := 50, opacity := 1, flow := 1, rotation := 0,
    spacing := 25, color := ⟨0, 0, 0⟩ }

/-- A fresh `BrushManager`: not drawing, no current stroke, nothing
rasterized. -/
def initialBrushState : BrushState :=
  { currentBrush := "penBrush", brushSettings := initialBrushSettings,
    isDrawing := false, currentStroke := none, raster := [] }

/-- `applyStrokePoint`: rasterizes one brush or pencil sample at (x, y)
with the given pressure onto the active layer.  The embedding records the
sample in the raster log. -/
def applyStrokePoint (s : BrushState) (x y pressure : ℚ) : BrushState :=
  { s with raster := s.raster ++ [⟨x, y, pressure⟩] }

/-- `BrushManager.endStroke`: no-op unless a stroke is active. -/
def endStroke (s : BrushState) : BrushState :=
  if !s.isDrawing || s.currentStroke.isNone then s
  else { s with isDrawing := false, currentStroke := none }

/-- The squared distance between two sample positions; the source takes
`Math.sqrt` of this expression. -/
def dist2 (x1 y1 x2 y2 : ℚ) : ℚ := (x1 - x2) ^ 2 + (y1 - y2) ^ 2

/-- `BrushManager.applyStrokeWithInterpolation`: if the distance from the
previous recorded point exceeds 5, rasterize `ceil(distance / 3)`
interpolated samples (each with the terminating pressure), otherwise
rasterize the point itself. -/
noncomputable def applyStrokeWithInterpolation (s : BrushState)
    (x y pressure : ℚ) : BrushState :=
  match s.currentStroke with
  | none => applyStrokePoint s x y pressure
  | some stroke =>
    if stroke.points.length ≤ 1 then applyStrokePoint s x y pressure
    else
      let lastPoint := stroke.points.getD (stroke.points.length - 2) (0, 0)
      let d2 := dist2 x y lastPoint.1 lastPoint.2
      if qLtSqrt 5 d2 then
        let steps : ℕ := ⌈Real.sqrt (d2 : ℝ) / 3⌉₊
        (List.range steps).foldl (fun st i =>
          let t : ℚ := ((i + 1 : ℕ) : ℚ) / (steps : ℚ)
          applyStrokePoint st (lastPoint.1 + (x - lastPoint.1) * t)
            (lastPoint.2 + (y - lastPoint.2) * t) pressure) s
      else applyStrokePoint s x y pressure

/-- `BrushManager.startStroke`: implicitly ends any active stroke, opens a
new stroke record snapshotting the brush settings, and rasterizes the
initial point. -/
def startStroke (s : BrushState) (x y : ℚ) (pressure : ℚ) : BrushState :=
  let s1 := if s.isDrawing then endStroke s else s
  let s2 := { s1 with
    isDrawing := true,
    currentStroke := some {
      points := [(x, y)], pressure := [pressure],
      brush := s1.currentBrush,
      size := s1.brushSettings.size,
      opacity := s1.brushSettings.opacity,
      color := s1.brushSettings.color,
      hardness := s1.brushSettings.hardness,
      rotation := s1.brushSettings.rotation,
      flow := s1.brushSettings.flow } }
  applyStrokePoint s2 x y pressure

/-- `BrushManager.addToStroke`: throws when no stroke is in progress,
skips samples within distance 2 of the previous recorded point, otherwise
appends the sample and rasterizes it with gap interpolation. -/
noncomputable def addToStroke (s : BrushState) (x y : ℚ) (pressure : ℚ) :
    Except String BrushState :=
  match s.currentStroke, s.isDrawing with
  | none, _ => .error "No stroke in progress. Call startStroke() first."
  | some _, false => .error "No stroke in progress. Call startStroke() first."
  | some stroke, true =>
    let skip : Bool :=
      match stroke.points.getLast? with
      | some lastPoint => decide (sqrtLtQ (dist2 x y lastPoint.1 lastPoint.2) 2)
      | none => false
    if skip then .ok s
    else
      let stroke2 := { stroke with
        points := stroke.points ++ [(x, y)],
        pressure := stroke.pressure ++ [pressure] }
      .ok (applyStrokeWithInterpolation
        { s with currentStroke := some stroke2 } x y pressure)

/-! ### Claim C2: extend without an active stroke -/

/-- C2, counterexample: the claim asserts that calling extend
(`addToStroke`) with no active stroke is a logged no-op that does not throw
past the public API.  In fact the call throws an Error. -/
theorem claim_C2_counterexample :
    addToStroke initialBrushState 0 0 1 =
      .error "No stroke in progress. Call startStroke() first." := rfl

/-- C2 (amended): calling extend (`addToStroke`) when no stroke is active
— the manager is not drawing or holds no current stroke — throws the Error
"No stroke in progress. Call startStroke() first." for every coordinate and
pressure, without rasterizing anything or modifying stroke state (no new
state is produced). -/
theorem claim_C2_extend_without_stroke_throws (s : BrushState) (x y p : ℚ)
    (h : s.isDrawing = false ∨ s.currentStroke = none) :
    addToStroke s x y p =
      .error "No stroke in progress. Call startStroke() first." := by
  unfold addToStroke
  rcases hcs : s.currentStroke with _ | stroke
  · rfl
  · have hd : s.isDrawing = false := by
      rcases h with h | h
      · exact h
      · rw [hcs] at h; cases h
    rw [hd]

/-- C2 witness: the amended statement applied to a fresh manager. -/
theorem claim_C2_extend_without_stroke_throws_witness :
    (initialBrushState.isDrawing = false ∨
      initialBrushState.currentStroke = none) ∧
    addToStroke initialBrushState 2 3 (1 / 2) =
      .error "No stroke in progress. Call startStroke() first." :=
  ⟨Or.inl rfl,
   claim_C2_extend_without_stroke_throws initialBrushState 2 3 (1 / 2) (Or.inl rfl)⟩

/-! ### Claim C6: stroke gap-filling -/

theorem foldl_applyStrokePoint (φ : BrushState → ℕ → BrushState)
    (f g : ℕ → ℚ) (p : ℚ)
    (hφ : ∀ st i, φ st i = applyStrokePoint st (f i) (g i) p) :
    ∀ (l : List ℕ) (s : BrushState),
      l.foldl φ s =
        { s with raster := s.raster ++ l.map (fun i => ⟨f i, g i, p⟩) } := by
  intro l
  induction l with
  | nil => intro s; simp
  | cons a l ih =>
      intro s
      rw [List.foldl_cons, hφ s a, ih (applyStrokePoint s (f a) (g a) p)]
      simp [applyStrokePoint]

theorem c6_sqrt_eval : Real.sqrt ((2500 : ℚ) : ℝ) = 50 := by
  rw [show ((2500 : ℚ) : ℝ) = (50 : ℝ) ^ 2 by norm_num,
    Real.sqrt_sq (by norm_num : (0 : ℝ) ≤ 50)]

theorem c6_not_skip : ¬ sqrtLtQ (dist2 50 0 0 0) 2 := by
  rw [show dist2 50 0 0 0 = 2500 by norm_num [dist2]]
  unfold sqrtLtQ
  rw [c6_sqrt_eval]
  norm_num

theorem c6_gap : qLtSqrt 5 (dist2 50 0 0 0) := by
  rw [show dist2 50 0 0 0 = 2500 by norm_num [dist2]]
  unfold qLtSqrt
  rw [c6_sqrt_eval]
  norm_num

theorem c6_steps : (⌈Real.sqrt ((dist2 50 0 0 0 : ℚ) : ℝ) / 3⌉₊ : ℕ) = 17 := by
  rw [show dist2 50 0 0 0 = 2500 by norm_num [dist2]]
  rw [c6_sqrt_eval]
  rw [Nat.ceil_eq_iff (by norm_num)]
  norm_num

/-- The stroke record after begin(0,0) with pressure 1. -/
def c6Stroke : Stroke :=
  { points := [(0, 0)], pressure := [1], brush := "penBrush", size := 10,
    opacity := 1, color := ⟨0, 0, 0⟩, hardness := 50, rotation := 0, flow := 1 }

/-- The manager state after begin(0,0) with pressure 1. -/
def c6Begun : BrushState :=
  { currentBrush := "penBrush", brushSettings := initialBrushSettings,
    isDrawing := true, currentStroke := some c6Stroke,
    raster := [⟨0, 0, 1⟩] }

theorem c6_begin_eval : startStroke initialBrushState 0 0 1 = c6Begun := rfl

/-- The 17 samples synthesized by gap interpolation for extend(50,0) with
pressure 3/4. -/
def c6Interp : List Sample :=
  (List.range 17).map (fun i =>
    ⟨0 + (50 - 0) * (((i + 1 : ℕ) : ℚ) / ((17 : ℕ) : ℚ)),
     0 + (0 - 0) * (((i + 1 : ℕ) : ℚ) / ((17 : ℕ) : ℚ)), 3 / 4⟩)

/-- The manager state after extend(50,0) has recorded the new point but
before rasterization. -/
def c6Mid : BrushState :=
  { currentBrush := "penBrush", brushSettings := initialBrushSettings,
    isDrawing := true,
    currentStroke := some { c6Stroke with
      points := [(0, 0), (50, 0)], pressure := [1, 3 / 4] },
    raster := [⟨0, 0, 1⟩] }

/-- The manager state after begin(0,0) pressure 1 then extend(50,0)
pressure 3/4. -/
def c6Final : BrushState :=
  { c6Mid with raster := ⟨0, 0, 1⟩ :: c6Interp }

theorem c6_extend_eval :
    addToStroke (startStroke initialBrushState 0 0 1) 50 0 (3 / 4) =
      .ok c6Final := by
  rw [c6_begin_eval]
  have hstep0 : addToStroke c6Begun 50 0 (3 / 4) =
      (if (decide (sqrtLtQ (dist2 50 0 0 0) 2)) = true then .ok c6Begun
       else .ok (applyStrokeWithInterpolation c6Mid 50 0 (3 / 4))) := rfl
  rw [hstep0, decide_eq_false c6_not_skip, if_neg (by simp)]
  have hstep1 : applyStrokeWithInterpolation c6Mid 50 0 (3 / 4) =
      (if qLtSqrt 5 (dist2 50 0 0 0) then
        (List.range (⌈Real.sqrt ((dist2 50 0 0 0 : ℚ) : ℝ) / 3⌉₊)).foldl
          (fun st i => applyStrokePoint st
            (0 + (50 - 0) * (((i + 1 : ℕ) : ℚ) /
              ((⌈Real.sqrt ((dist2 50 0 0 0 : ℚ) : ℝ) / 3⌉₊ : ℕ) : ℚ)))
            (0 + (0 - 0) * (((i + 1 : ℕ) : ℚ) /
              ((⌈Real.sqrt ((dist2 50 0 0 0 : ℚ) : ℝ) / 3⌉₊ : ℕ) : ℚ)))
            (3 / 4)) c6Mid
       else applyStrokePoint c6Mid 50 0 (3 / 4)) := rfl
  rw [hstep1, if_pos c6_gap, c6_steps]
  rw [foldl_applyStrokePoint _
    (fun i => 0 + (50 - 0) * (((i + 1 : ℕ) : ℚ) / ((17 : ℕ) : ℚ)))
    (fun i => 0 + (0 - 0) * (((i + 1 : ℕ) : ℚ) / ((17 : ℕ) : ℚ)))
    (3 / 4) (fun st i => rfl)]
  rfl

/-- C6: after begin(0,0) with pressure 1 and extend(50,0) with pressure
3/4, the engine has rasterized exactly ceil(50/3) + 1 = 18 distinct
samples: the initial point plus 17 samples synthesized by linear
interpolation, each rasterized with the terminating pressure 3/4
(pressure is not interpolated). -/
theorem claim_C6_stroke_gap_filling :
    ∃ s', addToStroke (startStroke initialBrushState 0 0 1) 50 0 (3 / 4) =
        .ok s' ∧
      s'.raster.length = ⌈(50 : ℚ) / 3⌉₊ + 1 ∧
      s'.raster.Nodup ∧
      s'.raster.head? = some ⟨0, 0, 1⟩ ∧
      ∀ smp ∈ s'.raster.tail, smp.pressure = 3 / 4 := by
  refine ⟨c6Final, c6_extend_eval, ?_, ?_, rfl, ?_⟩
  · have h17 : (⌈(50 : ℚ) / 3⌉₊ : ℕ) = 17 := by
      rw [Nat.ceil_eq_iff (by norm_num)]
      constructor
      · push_cast
        norm_num
      · push_cast
        norm_num
    rw [h17]
    show (⟨0, 0, 1⟩ :: c6Interp : List Sample).length = 18
    simp [c6Interp]
  · show (⟨0, 0, 1⟩ :: c6Interp : List Sample).Nodup
    rw [List.nodup_cons]
    constructor
    · intro hmem
      simp only [c6Interp, List.mem_map, List.mem_range] at hmem
      obtain ⟨i, _, heq⟩ := hmem
      have := congrArg Sample.pressure heq
      simp at this
      norm_num at this
    · refine List.Nodup.map ?_ (List.nodup_range 17)
      intro i j hij
      have hx := congrArg Sample.x hij
      simp only at hx
      field_simp at hx
      exact_mod_cast hx
  · intro smp hmem
    have : smp ∈ c6Interp := hmem
    simp only [c6Interp, List.mem_map, List.mem_range] at this
    obtain ⟨i, _, heq⟩ := this
    rw [← heq]

/-! ### Gradient rasterizers -/

/-- One gradient color stop. -/
structure GradStop where
  t : ℚ
  color : RGB
deriving DecidableEq, Repr

/-- JavaScript Math.round: floor(x + 1/2). -/
noncomputable def jsRound (x : ℝ) : ℤ := ⌊x + 1 / 2⌋

/-- The lerp helper of the gradient code. -/
noncomputable def lerp (a b t : ℝ) : ℝ := a + (b - a) * t

/-- Normalize and sort the stops: clamp each position into [0,1] and sort
ascending by position (stable, like the JS comparator a.t - b.t). -/
def sortStops (stops : List GradStop) : List GradStop :=
  (stops.map (fun s => { t := max 0 (min 1 s.t), color := s.color })).mergeSort
    (fun a b => decide (a.t ≤ b.t))

section GradientDefs

open Classical

/-- The bracketing-pair loop of colorAt: find consecutive stops with
s0.t ≤ t ≤ s1.t and interpolate (with the 1e-6 epsilon guard); fall back to
the supplied default (the last color) when no pair matches. -/
noncomputable def colorAtPairs : List GradStop → RGB → ℝ → RGB
  | s0 :: s1 :: rest, dflt, t =>
    if (s0.t : ℝ) ≤ t ∧ t ≤ (s1.t : ℝ) then
      let lt := (t - (s0.t : ℝ)) / max (1 / 1000000) ((s1.t : ℝ) - (s0.t : ℝ))
      { r := jsRound (lerp (s0.color.r : ℝ) (s1.color.r : ℝ) lt),
        g := jsRound (lerp (s0.color.g : ℝ) (s1.color.g : ℝ) lt),
        b := jsRound (lerp (s0.color.b : ℝ) (s1.color.b : ℝ) lt) }
    else colorAtPairs (s1 :: rest) dflt t
  | _, dflt, _ => dflt

/-- The colorAt helper shared by the gradient fills: clamp to the first
stop below its position and to the last stop above its position, otherwise
interpolate between the bracketing pair.  Empty stop lists are kept out by
the callers; the catch-all answer is black. -/
noncomputable def colorAt (sorted : List GradStop) (t : ℝ) : RGB :=
  match sorted with
  | [] => ⟨0, 0, 0⟩
  | s0 :: rest =>
    if t ≤ (s0.t : ℝ) then s0.color
    else
      let last := (s0 :: rest).getLast (by simp)
      if (last.t : ℝ) ≤ t then last.color
      else colorAtPairs (s0 :: rest) last.color t

/-- The four canvas corners probed by `applyDistanceGradientFromPoint`. -/
def cornerList (w h : ℕ) : List (ℚ × ℚ) :=
  [(0, 0), (((w : ℚ) - 1), 0), (0, ((h : ℚ) - 1)),
   (((w : ℚ) - 1), ((h : ℚ) - 1))]

/-- The furthest distance from the origin to a canvas corner. -/
noncomputable def cornerMaxDist (w h : ℕ) (ox oy : ℚ) : ℝ :=
  (cornerList w h).foldl
    (fun m c => max m (Real.sqrt ((dist2 c.1 c.2 ox oy : ℚ) : ℝ))) 0

/-- The per-pixel body of the distance gradient loop: linear index i maps
to (x, y) = (i mod w, i div w); t = clamp(d · maxInv, 0, 1) where maxInv is
the guarded inverse of the max corner distance. -/
noncomputable def distGradPixel (w h : ℕ) (ox oy : ℚ)
    (sorted : List GradStop) (i : ℕ) : RGBA :=
  let maxD := cornerMaxDist w h ox oy
  let maxInv : ℝ := if 0 < maxD then 1 / maxD else 1
  let x : ℕ := i % w
  let y : ℕ := i / w
  let d := Real.sqrt ((dist2 (x : ℚ) (y : ℚ) ox oy : ℚ) : ℝ)
  let t := max 0 (min 1 (d * maxInv))
  let c := colorAt sorted t
  ⟨c.r, c.g, c.b, 255⟩

/-- `KlecksManager.applyDistanceGradientFromPoint`: sort the stops, return
unchanged when none remain, otherwise repaint every pixel with the color at
t = clamp(distance to origin / max corner distance, 0, 1) at alpha 255. -/
noncomputable def applyDistanceGradientFromPoint (img : Image) (ox oy : ℚ)
    (stops : List GradStop) : Image :=
  let sorted := sortStops stops
  if sorted.length = 0 then img
  else
    { img with data :=
        (List.range (img.w * img.h)).map (distGradPixel img.w img.h ox oy sorted) }

end GradientDefs

/-! ### Claim C10: empty stops leave the layer untouched -/

/-- C10: for every surface state and origin,
`applyDistanceGradientFromPoint` called with an empty stop list returns
before touching the surface: every pixel of the active layer is left
unchanged. -/
theorem claim_C10_empty_stops_noop (img : Image) (ox oy : ℚ) :
    applyDistanceGradientFromPoint img ox oy [] = img := by
  unfold applyDistanceGradientFromPoint sortStops
  simp

/-! ### Claim C7: distance-gradient endpoint exactness -/

theorem foldl_max_init_le (f : ℚ × ℚ → ℝ) :
    ∀ (l : List (ℚ × ℚ)) (init : ℝ),
      init ≤ l.foldl (fun m c => max m (f c)) init := by
  intro l
  induction l with
  | nil => intro init; simp
  | cons a l ih =>
      intro init
      rw [List.foldl_cons]
      exact le_trans (le_max_left _ _) (ih _)

theorem le_foldl_max (f : ℚ × ℚ → ℝ) :
    ∀ (l : List (ℚ × ℚ)) (init : ℝ) (x : ℚ × ℚ), x ∈ l →
      f x ≤ l.foldl (fun m c => max m (f c)) init := by
  intro l
  induction l with
  | nil => intro init x hx; simp at hx
  | cons a l ih =>
      intro init x hx
      rw [List.foldl_cons]
      rcases List.mem_cons.1 hx with rfl | hx'
      · exact le_trans (le_max_right _ _) (foldl_max_init_le f l _)
      · exact ih _ x hx'

theorem sortStops_pair (c0 c1 : RGB) :
    sortStops [⟨0, c0⟩, ⟨1, c1⟩] = [⟨0, c0⟩, ⟨1, c1⟩] := by
  unfold sortStops
  have hmap : ([⟨0, c0⟩, ⟨1, c1⟩] : List GradStop).map
      (fun s => ({ t := max 0 (min 1 s.t), color := s.color } : GradStop)) =
      ([⟨0, c0⟩, ⟨1, c1⟩] : List GradStop) := by
    norm_num
  rw [hmap, List.mergeSort_of_sorted]
  simp [List.pairwise_cons]

theorem getPx_map_range (f : ℕ → RGBA) (n i : ℕ) (hi : i < n) :
    getPx ((List.range n).map f) i = f i := by
  unfold getPx
  rw [List.getD_eq_getElem?_getD, List.getElem?_map, List.getElem?_range hi]
  rfl

theorem index_lt {w h x y : ℕ} (hx : x < w) (hy : y < h) :
    y * w + x < w * h := by
  calc y * w + x < y * w + w := by omega
  _ = (y + 1) * w := by ring
  _ ≤ h * w := Nat.mul_le_mul_right w (by omega)
  _ = w * h := Nat.mul_comm h w

theorem index_mod {w x y : ℕ} (hx : x < w) : (y * w + x) % w = x := by
  rw [Nat.add_comm, Nat.add_mul_mod_self_right]
  exact Nat.mod_eq_of_lt hx

theorem index_div {w x y : ℕ} (hx : x < w) : (y * w + x) / w = y := by
  rw [Nat.add_comm, Nat.add_mul_div_right _ _ (by omega : 0 < w),
    Nat.div_eq_of_lt hx, Nat.zero_add]

theorem dist2_self_zero (x y : ℚ) : dist2 x y x y = 0 := by
  unfold dist2; ring

theorem dist2_pos_of_x_ne {x1 y1 x2 y2 : ℚ} (hx : x1 ≠ x2) :
    0 < dist2 x1 y1 x2 y2 := by
  unfold dist2
  rcases lt_or_gt_of_ne (sub_ne_zero.2 hx) with hlt | hgt
  · nlinarith [sq_nonneg (y1 - y2)]
  · nlinarith [sq_nonneg (y1 - y2)]

theorem dist2_pos_of_y_ne {x1 y1 x2 y2 : ℚ} (hy : y1 ≠ y2) :
    0 < dist2 x1 y1 x2 y2 := by
  unfold dist2
  rcases lt_or_gt_of_ne (sub_ne_zero.2 hy) with hlt | hgt
  · nlinarith [sq_nonneg (x1 - x2)]
  · nlinarith [sq_nonneg (x1 - x2)]

theorem colorAt_pair_zero (c0 c1 : RGB) :
    colorAt [⟨0, c0⟩, ⟨1, c1⟩] 0 = c0 := by
  simp only [colorAt]
  rw [if_pos (by norm_num)]

theorem colorAt_pair_one (c0 c1 : RGB) :
    colorAt [⟨0, c0⟩, ⟨1, c1⟩] 1 = c1 := by
  simp only [colorAt]
  rw [if_neg (by norm_num)]
  simp only [List.getLast]
  rw [if_pos (by norm_num)]

theorem distGradPixel_origin (w h : ℕ) (oxn oyn : ℕ) (red blue : RGB)
    (hox : oxn < w) :
    distGradPixel w h (oxn : ℚ) (oyn : ℚ) [⟨0, red⟩, ⟨1, blue⟩]
        (oyn * w + oxn) = ⟨red.r, red.g, red.b, 255⟩ := by
  unfold distGradPixel
  simp only []
  rw [index_mod hox, index_div hox, dist2_self_zero]
  rw [show (((0 : ℚ)) : ℝ) = 0 from by norm_num, Real.sqrt_zero, zero_mul]
  rw [show max (0 : ℝ) (min 1 0) = 0 from by norm_num]
  rw [colorAt_pair_zero]

theorem distGradPixel_corner (w h : ℕ) (ox oy : ℚ) (cxn cyn : ℕ)
    (red blue : RGB) (hcx : cxn < w)
    (hd : Real.sqrt ((dist2 (cxn : ℚ) (cyn : ℚ) ox oy : ℚ) : ℝ) =
      cornerMaxDist w h ox oy)
    (hmax : 0 < cornerMaxDist w h ox oy) :
    distGradPixel w h ox oy [⟨0, red⟩, ⟨1, blue⟩] (cyn * w + cxn) =
      ⟨blue.r, blue.g, blue.b, 255⟩ := by
  unfold distGradPixel
  simp only []
  rw [index_mod hcx, index_div hcx, hd, if_pos hmax]
  rw [mul_one_div_cancel (ne_of_gt hmax)]
  rw [show max (0 : ℝ) (min 1 1) = 1 from by norm_num]
  rw [colorAt_pair_one]

/-- A corner of the list lies in bounds (given the surface is nonempty). -/
theorem cornerList_bounds {w h cxn cyn : ℕ} (hw : 0 < w) (hh : 0 < h)
    (hmem : ((cxn : ℚ), (cyn : ℚ)) ∈ cornerList w h) :
    cxn < w ∧ cyn < h := by
  have hxw : ∀ a b : ℕ, 0 < b → ((a : ℚ) = (b : ℚ) - 1) → a < b := by
    intro a b hb hab
    have h1 : ((a + 1 : ℕ) : ℚ) = (b : ℚ) := by push_cast; push_cast at hab; linarith
    have h2 : a + 1 = b := by exact_mod_cast h1
    omega
  have hx0 : ∀ a b : ℕ, 0 < b → ((a : ℚ) = 0) → a < b := by
    intro a b hb hab
    have h1 : a = 0 := by exact_mod_cast hab
    omega
  simp only [cornerList, List.mem_cons, List.mem_singleton, Prod.mk.injEq,
    List.not_mem_nil, or_false] at hmem
  rcases hmem with ⟨h1, h2⟩ | ⟨h1, h2⟩ | ⟨h1, h2⟩ | ⟨h1, h2⟩
  · exact ⟨hx0 cxn w hw h1, hx0 cyn h hh h2⟩
  · exact ⟨hxw cxn w hw h1, hx0 cyn h hh h2⟩
  · exact ⟨hx0 cxn w hw h1, hxw cyn h hh h2⟩
  · exact ⟨hxw cxn w hw h1, hxw cyn h hh h2⟩

/-- The max corner distance is positive whenever the origin is an in-bounds
integer pixel of a surface with more than one pixel. -/
theorem cornerMaxDist_pos {w h oxn oyn : ℕ} (hox : oxn < w) (hoy : oyn < h)
    (hsize : 1 < w ∨ 1 < h) :
    0 < cornerMaxDist w h (oxn : ℚ) (oyn : ℚ) := by
  have key : ∀ cx cy : ℚ, (cx, cy) ∈ cornerList w h →
      0 < dist2 cx cy (oxn : ℚ) (oyn : ℚ) →
      0 < cornerMaxDist w h (oxn : ℚ) (oyn : ℚ) := by
    intro cx cy hmem hpos
    have hle := le_foldl_max
      (fun c => Real.sqrt ((dist2 c.1 c.2 (oxn : ℚ) (oyn : ℚ) : ℚ) : ℝ))
      (cornerList w h) 0 (cx, cy) hmem
    have hsq : 0 < Real.sqrt ((dist2 cx cy (oxn : ℚ) (oyn : ℚ) : ℚ) : ℝ) := by
      rw [Real.sqrt_pos]
      exact_mod_cast hpos
    exact lt_of_lt_of_le hsq hle
  rcases hsize with hw | hh
  · by_cases h0 : oxn = 0
    · refine key ((w : ℚ) - 1) 0 (by simp [cornerList]) ?_
      apply dist2_pos_of_x_ne
      subst h0
      intro hEq
      push_cast at hEq
      have : (2 : ℚ) ≤ (w : ℚ) := by exact_mod_cast hw
      linarith
    · refine key 0 0 (by simp [cornerList]) ?_
      apply dist2_pos_of_x_ne
      intro hEq
      exact h0 (by exact_mod_cast hEq.symm)
  · by_cases h0 : oyn = 0
    · refine key 0 ((h : ℚ) - 1) (by simp [cornerList]) ?_
      apply dist2_pos_of_y_ne
      subst h0
      intro hEq
      push_cast at hEq
      have : (2 : ℚ) ≤ (h : ℚ) := by exact_mod_cast hh
      linarith
    · refine key 0 0 (by simp [cornerList]) ?_
      apply dist2_pos_of_y_ne
      intro hEq
      exact h0 (by exact_mod_cast hEq.symm)

theorem applyDGFP_pair_data (img : Image) (ox oy : ℚ) (red blue : RGB) :
    (applyDistanceGradientFromPoint img ox oy [⟨0, red⟩, ⟨1, blue⟩]).data =
      (List.range (img.w * img.h)).map
        (distGradPixel img.w img.h ox oy [⟨0, red⟩, ⟨1, blue⟩]) := by
  unfold applyDistanceGradientFromPoint
  rw [sortStops_pair]
  simp

/-- C7, counterexample: on a 1×1 surface with an in-bounds integer origin,
the four corners coincide with the origin, so the farthest corner is
painted the first stop color (red), not the last stop color (blue) — the
claim cannot hold for every surface. -/
theorem claim_C7_counterexample :
    applyDistanceGradientFromPoint ⟨1, 1, [⟨7, 7, 7, 7⟩]⟩ 0 0
        [⟨0, ⟨255, 0, 0⟩⟩, ⟨1, ⟨0, 0, 255⟩⟩] =
      ⟨1, 1, [⟨255, 0, 0, 255⟩]⟩ ∧
    (⟨255, 0, 0, 255⟩ : RGBA) ≠ ⟨0, 0, 255, 255⟩ := by
  constructor
  · unfold applyDistanceGradientFromPoint
    rw [sortStops_pair]
    simp only []
    rw [if_neg (by norm_num)]
    have hpix := distGradPixel_origin 1 1 0 0 ⟨255, 0, 0⟩ ⟨0, 0, 255⟩
      (by norm_num)
    simp only [show (0 * 1 + 0 : ℕ) = 0 from rfl, Nat.cast_zero] at hpix
    simp [show (1 * 1 : ℕ) = 1 from rfl, List.range_succ, hpix]
  · intro hEq
    cases hEq

/-- C7 (amended): provided the surface has more than one pixel (so the max
corner distance is positive), `applyDistanceGradientFromPoint` with stops
[(0, red), (1, blue)] and an in-bounds integer origin paints the origin
pixel pure red and paints pure blue every corner whose distance from the
origin attains the max corner distance (on a 1×1 surface the single corner
coincides with the origin and is painted red instead). -/
theorem claim_C7_distance_gradient_endpoints (img : Image) (oxn oyn : ℕ)
    (red blue : RGB) (hox : oxn < img.w) (hoy : oyn < img.h)
    (hsize : 1 < img.w ∨ 1 < img.h) :
    getPx (applyDistanceGradientFromPoint img (oxn : ℚ) (oyn : ℚ)
        [⟨0, red⟩, ⟨1, blue⟩]).data (oyn * img.w + oxn) =
      ⟨red.r, red.g, red.b, 255⟩ ∧
    ∀ cxn cyn : ℕ, ((cxn : ℚ), (cyn : ℚ)) ∈ cornerList img.w img.h →
      Real.sqrt ((dist2 (cxn : ℚ) (cyn : ℚ) (oxn : ℚ) (oyn : ℚ) : ℚ) : ℝ) =
        cornerMaxDist img.w img.h (oxn : ℚ) (oyn : ℚ) →
      getPx (applyDistanceGradientFromPoint img (oxn : ℚ) (oyn : ℚ)
          [⟨0, red⟩, ⟨1, blue⟩]).data (cyn * img.w + cxn) =
        ⟨blue.r, blue.g, blue.b, 255⟩ := by
  rw [applyDGFP_pair_data]
  constructor
  · rw [getPx_map_range _ _ _ (index_lt hox hoy)]
    exact distGradPixel_origin img.w img.h oxn oyn red blue hox
  · intro cxn cyn hmem hd
    obtain ⟨hcx, hcy⟩ := cornerList_bounds (by omega) (by omega) hmem
    rw [getPx_map_range _ _ _ (index_lt hcx hcy)]
    exact distGradPixel_corner img.w img.h (oxn : ℚ) (oyn : ℚ) cxn cyn
      red blue hcx hd (cornerMaxDist_pos hox hoy hsize)

/-- C7 witness: the amended endpoint statement on a concrete 2×1 surface
with origin (0,0). -/
theorem claim_C7_distance_gradient_endpoints_witness :
    (0 < 2) ∧ (0 < 1) ∧ ((1 < 2) ∨ (1 < 1)) ∧
    (getPx (applyDistanceGradientFromPoint
        (⟨2, 1, [⟨9, 9, 9, 9⟩, ⟨9, 9, 9, 9⟩]⟩ : Image) ((0 : ℕ) : ℚ)
        ((0 : ℕ) : ℚ) [⟨0, ⟨255, 0, 0⟩⟩, ⟨1, ⟨0, 0, 255⟩⟩]).data
        (0 * 2 + 0) = ⟨255, 0, 0, 255⟩ ∧
     ∀ cxn cyn : ℕ, ((cxn : ℚ), (cyn : ℚ)) ∈ cornerList 2 1 →
      Real.sqrt ((dist2 (cxn : ℚ) (cyn : ℚ) ((0 : ℕ) : ℚ)
          ((0 : ℕ) : ℚ) : ℚ) : ℝ) = cornerMaxDist 2 1 ((0 : ℕ) : ℚ)
          ((0 : ℕ) : ℚ) →
      getPx (applyDistanceGradientFromPoint
          (⟨2, 1, [⟨9, 9, 9, 9⟩, ⟨9, 9, 9, 9⟩]⟩ : Image) ((0 : ℕ) : ℚ)
          ((0 : ℕ) : ℚ) [⟨0, ⟨255, 0, 0⟩⟩, ⟨1, ⟨0, 0, 255⟩⟩]).data
          (cyn * 2 + cxn) = ⟨0, 0, 255, 255⟩) :=
  ⟨by norm_num, by norm_num, Or.inl (by norm_num),
   claim_C7_distance_gradient_endpoints ⟨2, 1, [⟨9, 9, 9, 9⟩, ⟨9, 9, 9, 9⟩]⟩
     0 0 ⟨255, 0, 0⟩ ⟨0, 0, 255⟩ (by norm_num) (by norm_num)
     (Or.inl (by norm_num))⟩

/-! ### Claim C8: radial bucket fill on a single-pixel region -/

section RadialDefs

open Classical

/-- The maximum distance from the click point to a masked pixel, computed
by `applyRadialBucketFill` in its first pass over the surface. -/
noncomputable def radialMaxD (w h : ℕ) (x y : ℚ) (mask : Finset ℕ) : ℝ :=
  (List.range (w * h)).foldl
    (fun m i => if i ∈ mask then
        max m (Real.sqrt ((dist2 ((i % w : ℕ) : ℚ) ((i / w : ℕ) : ℚ) x y : ℚ) : ℝ))
      else m) 0

/-- The per-pixel result of `applyRadialBucketFill` after compositing the
offscreen buffer: masked pixels receive the gradient color at alpha 255,
with t = 1 for a single-pixel region (maxD = 0, avoiding the division) and
t = clamp(d · invMax, 0, 1) otherwise; unmasked pixels keep alpha 0 on the
offscreen buffer so that the source-over composite at the default opacity 1
leaves the original pixel. -/
noncomputable def radialPixel (w : ℕ) (x y : ℚ) (sorted : List GradStop)
    (mask : Finset ℕ) (maxD : ℝ) (orig : List RGBA) (i : ℕ) : RGBA :=
  if i ∈ mask then
    let invMax : ℝ := if 0 < maxD then 1 / maxD else 1
    let d := Real.sqrt ((dist2 ((i % w : ℕ) : ℚ) ((i / w : ℕ) : ℚ) x y : ℚ) : ℝ)
    let t : ℝ := if maxD = 0 then 1 else max 0 (min 1 (d * invMax))
    let c := colorAt sorted t
    ⟨c.r, c.g, c.b, 255⟩
  else getPx orig i

/-- `KlecksManager.applyRadialBucketFill` with the default options
(opacity 1, source-over blending): flood the region at the click point,
fall back to the primary/secondary pair when no stops are supplied, and
fill only the masked pixels with the radial gradient centred at the click
point. -/
noncomputable def applyRadialBucketFill (img : Image) (x y : ℚ)
    (stops : List GradStop) (primary secondary : RGB) (tol : ℚ) : Image :=
  match computeFloodRegionMask img x y tol with
  | none => img
  | some (mask, _target) =>
    let sorted := sortStops
      (if stops = [] then [⟨0, primary⟩, ⟨1, secondary⟩] else stops)
    let maxD := radialMaxD img.w img.h x y mask
    { img with data :=
        (List.range (img.w * img.h)).map (radialPixel img.w x y sorted mask maxD img.data) }

end RadialDefs

/-- Every stop produced by sortStops has position at most 1 (positions are
clamped into [0,1] before sorting). -/
theorem sortStops_t_le_one {l : List GradStop} {s : GradStop}
    (hs : s ∈ sortStops l) : s.t ≤ 1 := by
  unfold sortStops at hs
  rw [List.mem_mergeSort] at hs
  obtain ⟨a, _, rfl⟩ := List.mem_map.1 hs
  simp only []
  exact max_le (by norm_num) (min_le_left _ _)

/-- colorAt at t = 1 returns the color of the last stop, provided the first
stop sits strictly below 1 and all stops sit at most at 1. -/
theorem colorAt_one_of (s0 : GradStop) (rest : List GradStop)
    (hhead : s0.t < 1)
    (hlast : ((s0 :: rest).getLast (by simp)).t ≤ 1) :
    colorAt (s0 :: rest) 1 = ((s0 :: rest).getLast (by simp)).color := by
  simp only [colorAt]
  rw [if_neg (by exact_mod_cast not_le.2 hhead)]
  rw [if_pos (by exact_mod_cast hlast)]

theorem foldl_stays (g : ℝ → ℕ → ℝ) (m : ℝ) :
    ∀ (l : List ℕ), (∀ i ∈ l, g m i = m) → l.foldl g m = m := by
  intro l
  induction l with
  | nil => intro _; rfl
  | cons a l ih =>
      intro hstep
      rw [List.foldl_cons, hstep a (List.mem_cons_self a l)]
      exact ih (fun i hi => hstep i (List.mem_cons_of_mem a hi))

theorem pixelIndex_eq_toNat {w : ℕ} {sx sy : ℤ} (hx : 0 ≤ sx) (hy : 0 ≤ sy) :
    pixelIndex w (sx, sy) = sy.toNat * w + sx.toNat := by
  obtain ⟨a, rfl⟩ := Int.eq_ofNat_of_zero_le hx
  obtain ⟨b, rfl⟩ := Int.eq_ofNat_of_zero_le hy
  show ((a : ℤ) + (b : ℤ) * (w : ℤ)).toNat = ((b : ℤ)).toNat * w + ((a : ℤ)).toNat
  have h1 : ((a : ℤ) + (b : ℤ) * (w : ℤ)) = ((b * w + a : ℕ) : ℤ) := by
    push_cast; ring
  rw [h1, Int.toNat_natCast, Int.toNat_natCast, Int.toNat_natCast]

/-- On a single-pixel region at an integer in-bounds click point, the first
pass of the radial bucket fill finds maximum distance 0. -/
theorem radialMaxD_singleton {w h : ℕ} {sx sy : ℤ}
    (hb : inBounds w h (sx, sy)) :
    radialMaxD w h (sx : ℚ) (sy : ℚ) {pixelIndex w (sx, sy)} = 0 := by
  obtain ⟨h1, h2, h3, h4⟩ := hb
  have h1' : 0 ≤ sx := h1
  have h2' : sx < (w : ℤ) := h2
  have h3' : 0 ≤ sy := h3
  unfold radialMaxD
  apply foldl_stays
  intro i _
  by_cases hi : i ∈ ({pixelIndex w (sx, sy)} : Finset ℕ)
  · rw [if_pos hi]
    have hieq : i = pixelIndex w (sx, sy) := Finset.mem_singleton.1 hi
    subst hieq
    rw [pixelIndex_eq_toNat h1' h3']
    have hsxlt : sx.toNat < w := by omega
    rw [index_mod hsxlt, index_div hsxlt]
    have hxq : ((sx.toNat : ℕ) : ℚ) = (sx : ℚ) := by
      exact_mod_cast congrArg (fun z : ℤ => (z : ℚ)) (Int.toNat_of_nonneg h1')
    have hyq : ((sy.toNat : ℕ) : ℚ) = (sy : ℚ) := by
      exact_mod_cast congrArg (fun z : ℤ => (z : ℚ)) (Int.toNat_of_nonneg h3')
    rw [hxq, hyq, dist2_self_zero]
    simp
  · rw [if_neg hi]

/-- A masked pixel of a zero-diameter region receives t = 1: the
singlePixelRegion branch is taken and no division happens. -/
theorem radialPixel_masked_zero (w : ℕ) (x y : ℚ) (sorted : List GradStop)
    (mask : Finset ℕ) (orig : List RGBA) (i : ℕ) (hi : i ∈ mask) :
    radialPixel w x y sorted mask 0 orig i =
      ⟨(colorAt sorted 1).r, (colorAt sorted 1).g, (colorAt sorted 1).b, 255⟩ := by
  unfold radialPixel
  rw [if_pos hi]
  simp only [eq_self_iff_true, if_true]

/-- An unmasked pixel is left unchanged by the radial bucket fill. -/
theorem radialPixel_unmasked (w : ℕ) (x y : ℚ) (sorted : List GradStop)
    (mask : Finset ℕ) (maxD : ℝ) (orig : List RGBA) (i : ℕ) (hi : i ∉ mask) :
    radialPixel w x y sorted mask maxD orig i = getPx orig i := by
  unfold radialPixel
  rw [if_neg hi]

/-- C8, counterexample: with stops [(1,red),(1,blue)] every stop sits at
t = 1, so the single masked pixel receives the color of the first sorted
stop (red), not the color of the last stop (blue) — the claim as stated
fails for such stop lists. -/
theorem claim_C8_counterexample :
    getPx (applyRadialBucketFill ⟨1, 1, [⟨3, 3, 3, 255⟩]⟩ 0 0
        [⟨1, ⟨255, 0, 0⟩⟩, ⟨1, ⟨0, 0, 255⟩⟩] ⟨0, 0, 0⟩ ⟨255, 255, 255⟩ 0).data 0 =
      ⟨255, 0, 0, 255⟩ ∧
    ([⟨1, ⟨255, 0, 0⟩⟩, ⟨1, ⟨0, 0, 255⟩⟩] : List GradStop).getLast? =
      some ⟨1, ⟨0, 0, 255⟩⟩ ∧
    (⟨255, 0, 0, 255⟩ : RGBA) ≠ ⟨0, 0, 255, 255⟩ := by
  refine ⟨?_, rfl, by intro hEq; cases hEq⟩
  have hstep : applyRadialBucketFill ⟨1, 1, [⟨3, 3, 3, 255⟩]⟩ 0 0
      [⟨1, ⟨255, 0, 0⟩⟩, ⟨1, ⟨0, 0, 255⟩⟩] ⟨0, 0, 0⟩ ⟨255, 255, 255⟩ 0 =
      ⟨1, 1, (List.range (1 * 1)).map
        (radialPixel 1 0 0
          (sortStops [⟨1, ⟨255, 0, 0⟩⟩, ⟨1, ⟨0, 0, 255⟩⟩]) {0}
          (radialMaxD 1 1 0 0 {0}) [⟨3, 3, 3, 255⟩])⟩ := rfl
  have hsort : sortStops [⟨1, ⟨255, 0, 0⟩⟩, ⟨1, ⟨0, 0, 255⟩⟩] =
      [⟨1, ⟨255, 0, 0⟩⟩, ⟨1, ⟨0, 0, 255⟩⟩] := by
    unfold sortStops
    have hmap : ([⟨1, ⟨255, 0, 0⟩⟩, ⟨1, ⟨0, 0, 255⟩⟩] : List GradStop).map
        (fun s => ({ t := max 0 (min 1 s.t), color := s.color } : GradStop)) =
        ([⟨1, ⟨255, 0, 0⟩⟩, ⟨1, ⟨0, 0, 255⟩⟩] : List GradStop) := by
      norm_num
    rw [hmap, List.mergeSort_of_sorted]
    simp [List.pairwise_cons]
  have hmaxD : radialMaxD 1 1 0 0 {0} = 0 := by
    have h0 := @radialMaxD_singleton 1 1 0 0
      (by exact ⟨le_refl 0, by norm_num, le_refl 0, by norm_num⟩)
    simpa using h0
  have hc : colorAt [⟨1, ⟨255, 0, 0⟩⟩, ⟨1, ⟨0, 0, 255⟩⟩] 1 = ⟨255, 0, 0⟩ := by
    simp only [colorAt]
    rw [if_pos (by norm_num)]
  have hpix : radialPixel 1 0 0 [⟨1, ⟨255, 0, 0⟩⟩, ⟨1, ⟨0, 0, 255⟩⟩] {0} 0
      [⟨3, 3, 3, 255⟩] 0 = ⟨255, 0, 0, 255⟩ := by
    rw [radialPixel_masked_zero 1 0 0 _ _ _ 0 (Finset.mem_singleton.2 rfl), hc]
  rw [hstep]
  show getPx ((List.range (1 * 1)).map _) 0 = _
  rw [hsort, hmaxD, getPx_map_range _ _ _ (by norm_num)]
  exact hpix

theorem getPx_eq_default {data : List RGBA} {i : ℕ} (hi : data.length ≤ i) :
    getPx data i = dfltPx := List.getD_eq_default data dfltPx hi

theorem computeFloodRegionMask_some_bounds {img : Image} {x y tol : ℚ}
    {r : Finset ℕ × RGBA} (hres : computeFloodRegionMask img x y tol = some r) :
    inBounds img.w img.h (⌊x⌋, ⌊y⌋) := by
  unfold computeFloodRegionMask at hres
  simp only [] at hres
  by_cases hb : ⌊x⌋ < 0 ∨ ⌊y⌋ < 0 ∨ (img.w : ℤ) ≤ ⌊x⌋ ∨ (img.h : ℤ) ≤ ⌊y⌋
  · rw [if_pos hb] at hres; cases hres
  · push_neg at hb
    exact ⟨hb.1, hb.2.2.1, hb.2.1, hb.2.2.2⟩

theorem applyRadialBucketFill_some {img : Image} {x y : ℚ}
    {stops : List GradStop} {primary secondary : RGB} {tol : ℚ}
    {mask : Finset ℕ} {tgt : RGBA}
    (hmask : computeFloodRegionMask img x y tol = some (mask, tgt)) :
    (applyRadialBucketFill img x y stops primary secondary tol).data =
      (List.range (img.w * img.h)).map
        (radialPixel img.w x y
          (sortStops (if stops = [] then [⟨0, primary⟩, ⟨1, secondary⟩]
            else stops))
          mask (radialMaxD img.w img.h x y mask) img.data) := by
  unfold applyRadialBucketFill
  rw [hmask]

/-- C8 (amended): on a region whose mask is exactly the single (integer,
in-bounds) seed pixel, the radial bucket fill performs no division by zero
— the singlePixelRegion branch assigns t = 1 directly — and paints that
pixel with the color of the last sorted stop, provided the first sorted
stop sits strictly below position 1 (when every stop sits at position 1 the
source returns the first stop color instead); all other pixels are
unchanged. -/
theorem claim_C8_single_pixel_region (img : Image) (sx sy : ℤ)
    (stops : List GradStop) (primary secondary : RGB) (tol : ℚ) (tgt : RGBA)
    (s0 : GradStop) (rest : List GradStop)
    (hwf : img.data.length = img.w * img.h)
    (hmask : computeFloodRegionMask img (sx : ℚ) (sy : ℚ) tol =
      some ({pixelIndex img.w (sx, sy)}, tgt))
    (hsorted : sortStops (if stops = [] then [⟨0, primary⟩, ⟨1, secondary⟩]
      else stops) = s0 :: rest)
    (hhead : s0.t < 1) :
    ∀ i, getPx (applyRadialBucketFill img (sx : ℚ) (sy : ℚ) stops primary
        secondary tol).data i =
      if i = pixelIndex img.w (sx, sy) then
        ⟨((s0 :: rest).getLast (by simp)).color.r,
         ((s0 :: rest).getLast (by simp)).color.g,
         ((s0 :: rest).getLast (by simp)).color.b, 255⟩
      else getPx img.data i := by
  have hb : inBounds img.w img.h (sx, sy) := by
    have := computeFloodRegionMask_some_bounds hmask
    rwa [Int.floor_intCast, Int.floor_intCast] at this
  have hcolor : colorAt (s0 :: rest) 1 = ((s0 :: rest).getLast (by simp)).color := by
    refine colorAt_one_of s0 rest hhead ?_
    have hmem : (s0 :: rest).getLast (by simp) ∈
        sortStops (if stops = [] then [⟨0, primary⟩, ⟨1, secondary⟩] else stops) := by
      rw [hsorted]
      exact List.getLast_mem _
    exact sortStops_t_le_one hmem
  intro i
  rw [applyRadialBucketFill_some hmask, hsorted, radialMaxD_singleton hb]
  by_cases hi : i = pixelIndex img.w (sx, sy)
  · subst hi
    rw [getPx_map_range _ _ _ (pixelIndex_lt hb)]
    rw [radialPixel_masked_zero _ _ _ _ _ _ _ (Finset.mem_singleton.2 rfl)]
    rw [if_pos rfl, hcolor]
  · rw [if_neg hi]
    by_cases hlt : i < img.w * img.h
    · rw [getPx_map_range _ _ _ hlt]
      exact radialPixel_unmasked _ _ _ _ _ _ _ _
        (fun hmem => hi (Finset.mem_singleton.1 hmem))
    · push_neg at hlt
      rw [getPx_eq_default (by simpa using hlt), getPx_eq_default (by omega)]

/-- C8 witness: the amended statement applied to a concrete 1×1 image with
stops [(0, red), (1, blue)] at tolerance 0. -/
theorem claim_C8_single_pixel_region_witness :
    ((⟨1, 1, [⟨8, 8, 8, 255⟩]⟩ : Image).data.length = 1 * 1) ∧
    computeFloodRegionMask ⟨1, 1, [⟨8, 8, 8, 255⟩]⟩ ((0 : ℤ) : ℚ) ((0 : ℤ) : ℚ) 0 =
      some ({pixelIndex 1 ((0 : ℤ), (0 : ℤ))}, ⟨8, 8, 8, 255⟩) ∧
    sortStops (if ([⟨0, ⟨255, 0, 0⟩⟩, ⟨1, ⟨0, 0, 255⟩⟩] : List GradStop) = []
      then [⟨0, ⟨9, 9, 9⟩⟩, ⟨1, ⟨7, 7, 7⟩⟩]
      else [⟨0, ⟨255, 0, 0⟩⟩, ⟨1, ⟨0, 0, 255⟩⟩]) =
      (⟨0, ⟨255, 0, 0⟩⟩ : GradStop) :: [⟨1, ⟨0, 0, 255⟩⟩] ∧
    ((⟨0, ⟨255, 0, 0⟩⟩ : GradStop).t < 1) ∧
    (∀ i, getPx (applyRadialBucketFill ⟨1, 1, [⟨8, 8, 8, 255⟩]⟩ ((0 : ℤ) : ℚ)
        ((0 : ℤ) : ℚ) [⟨0, ⟨255, 0, 0⟩⟩, ⟨1, ⟨0, 0, 255⟩⟩] ⟨9, 9, 9⟩ ⟨7, 7, 7⟩ 0).data i =
      if i = pixelIndex 1 ((0 : ℤ), (0 : ℤ)) then
        ⟨(((⟨0, ⟨255, 0, 0⟩⟩ : GradStop) :: [⟨1, ⟨0, 0, 255⟩⟩]).getLast (by simp)).color.r,
         (((⟨0, ⟨255, 0, 0⟩⟩ : GradStop) :: [⟨1, ⟨0, 0, 255⟩⟩]).getLast (by simp)).color.g,
         (((⟨0, ⟨255, 0, 0⟩⟩ : GradStop) :: [⟨1, ⟨0, 0, 255⟩⟩]).getLast (by simp)).color.b, 255⟩
      else getPx ([⟨8, 8, 8, 255⟩] : List RGBA) i) :=
  ⟨rfl, rfl,
   by rw [if_neg (by simp)]; exact sortStops_pair ⟨255, 0, 0⟩ ⟨0, 0, 255⟩,
   by norm_num,
   claim_C8_single_pixel_region ⟨1, 1, [⟨8, 8, 8, 255⟩]⟩ 0 0
     [⟨0, ⟨255, 0, 0⟩⟩, ⟨1, ⟨0, 0, 255⟩⟩] ⟨9, 9, 9⟩ ⟨7, 7, 7⟩ 0 ⟨8, 8, 8, 255⟩
     ⟨0, ⟨255, 0, 0⟩⟩ [⟨1, ⟨0, 0, 255⟩⟩] rfl rfl
     (by rw [if_neg (by simp)]; exact sortStops_pair ⟨255, 0, 0⟩ ⟨0, 0, 255⟩)
     (by norm_num)⟩

/-!
### Alpha box blur (blurAlpha, klecks-manager.ts lines 771-809)

The source copies the alpha bytes into a Uint8ClampedArray, runs a
horizontal running-sum pass that writes each (2 radius + 1)-wide window
sum into a Uint16Array (the store truncates modulo 65536), then a
vertical running-sum pass over that intermediate, storing
Math.round(sum / div^2) into the alpha byte of each pixel, where
div = radius * 2 + 1.  Window reads clamp to the nearest valid index.
One scanline of the running-sum loop is lineGo (structural recursion on
the remaining count); natural subtraction models the max(0, x1) clamp of
the leaving index.  Math.round over nonnegative values is jsRoundQ.
-/

/-- Math.round over the rationals: floor after adding one half. -/
def jsRoundQ (q : ℚ) : ℤ := ⌊q + 1 / 2⌋

/-- One running-sum scanline: emit the current sum, then advance it by
adding the entering clamped sample and subtracting the leaving clamped
sample, exactly as the inner loops of blurAlpha do. -/
def lineGo (n radius : ℕ) (f : ℕ → ℤ) : ℕ → ℕ → ℤ → List ℤ
  | 0, _, _ => []
  | count + 1, x, sum =>
      sum :: lineGo n radius f count (x + 1)
        (sum + f (min (n - 1) (x + radius + 1)) - f (x - radius))

/-- The window sum accumulated by the first inner loop, before any output
is emitted: samples at clamped positions x = -radius .. radius. -/
def initSum (n radius : ℕ) (f : ℕ → ℤ) : ℤ :=
  ((List.range (2 * radius + 1)).map (fun k => f (min (n - 1) (k - radius)))).sum

/-- One full line of a separable pass: the n successive window sums. -/
def linePass (n radius : ℕ) (f : ℕ → ℤ) : List ℤ :=
  lineGo n radius f n 0 (initSum n radius f)

/-- Horizontal pass over row y of the alpha plane. -/
def hRow (w radius : ℕ) (data : List RGBA) (y : ℕ) : List ℤ :=
  linePass w radius (fun x => (getPx data (y * w + x)).a)

/-- The Uint16 intermediate at flat index i: the horizontal window sum as
truncated by the Uint16Array store. -/
def tmpAt (w radius : ℕ) (data : List RGBA) (i : ℕ) : ℤ :=
  (hRow w radius data (i / w)).getD (i % w) 0 % 65536

/-- Vertical pass over column x of the truncated intermediate. -/
def vCol (w h radius : ℕ) (data : List RGBA) (x : ℕ) : List ℤ :=
  linePass h radius (fun y => tmpAt w radius data (y * w + x))

/-- Output alpha of pixel i: Math.round(sum / (div * div)). -/
def outAlpha (w h radius : ℕ) (data : List RGBA) (i : ℕ) : ℤ :=
  jsRoundQ (((vCol w h radius data (i % w)).getD (i / w) 0 : ℚ) /
    (((2 * (radius : ℤ) + 1) * (2 * (radius : ℤ) + 1) : ℤ) : ℚ))

/-- blurAlpha: separable box blur of the alpha channel; the red, green
and blue bytes of every pixel are left untouched. -/
def blurAlpha (w h radius : ℕ) (data : List RGBA) : List RGBA :=
  data.mapIdx (fun i px =>
    if i < w * h then { px with a := outAlpha w h radius data i } else px)

/-- The intermediate as the specification describes it: the exact
horizontal window sum, with no Uint16 truncation. -/
def tmpSpecAt (w radius : ℕ) (data : List RGBA) (i : ℕ) : ℤ :=
  (hRow w radius data (i / w)).getD (i % w) 0

/-- Vertical pass over the exact (untruncated) horizontal result. -/
def vColSpec (w h radius : ℕ) (data : List RGBA) (x : ℕ) : List ℤ :=
  linePass h radius (fun y => tmpSpecAt w radius data (y * w + x))

/-- Output alpha per the specification formula, over the exact
intermediate. -/
def outAlphaSpec (w h radius : ℕ) (data : List RGBA) (i : ℕ) : ℤ :=
  jsRoundQ (((vColSpec w h radius data (i % w)).getD (i / w) 0 : ℚ) /
    (((2 * (radius : ℤ) + 1) * (2 * (radius : ℤ) + 1) : ℤ) : ℚ))

/-- blurAlpha as the specification words it: a horizontal running-sum
window pass producing an intermediate per-pixel sum, a vertical pass over
the horizontal result with the same window, and each output alpha the
rounded value of sum / (2 radius + 1)^2 — with exact integer
intermediates, no Uint16 truncation. -/
def blurAlphaSpec (w h radius : ℕ) (data : List RGBA) : List RGBA :=
  data.mapIdx (fun i px =>
    if i < w * h then { px with a := outAlphaSpec w h radius data i } else px)

/-- The direct clamped window sum centered at output position x. -/
def boxSum (n radius : ℕ) (f : ℕ → ℤ) (x : ℕ) : ℤ :=
  ((List.range (2 * radius + 1)).map (fun k => f (min (n - 1) (x + k - radius)))).sum

theorem sum_map_succ_shift (g : ℕ → ℤ) (m : ℕ) :
    ((List.range m).map (fun k => g (k + 1))).sum
      = ((List.range m).map g).sum + g m - g 0 := by
  induction m with
  | zero => simp
  | succ m ih =>
      simp only [List.range_succ, List.map_append, List.sum_append, List.map_cons,
        List.map_nil, List.sum_cons, List.sum_nil, add_zero]
      rw [ih]
      ring

theorem boxSum_succ (n radius : ℕ) (f : ℕ → ℤ) (x : ℕ) (hx : x + 1 ≤ n) :
    boxSum n radius f (x + 1)
      = boxSum n radius f x + f (min (n - 1) (x + radius + 1)) - f (x - radius) := by
  unfold boxSum
  have hfun : (fun k => f (min (n - 1) (x + 1 + k - radius)))
      = (fun k => (fun j => f (min (n - 1) (x + j - radius))) (k + 1)) := by
    funext k
    simp only []
    have harg : x + 1 + k - radius = x + (k + 1) - radius := by omega
    rw [harg]
  rw [hfun, sum_map_succ_shift (fun j => f (min (n - 1) (x + j - radius))) (2 * radius + 1)]
  have h2 : min (n - 1) (x + (2 * radius + 1) - radius) = min (n - 1) (x + radius + 1) := by
    omega
  have h3 : min (n - 1) (x + 0 - radius) = x - radius := by omega
  rw [h2, h3]

theorem lineGo_getD (n radius : ℕ) (f : ℕ → ℤ) :
    ∀ (count x : ℕ) (sum : ℤ), x + count ≤ n → sum = boxSum n radius f x →
      ∀ j, j < count →
        (lineGo n radius f count x sum).getD j 0 = boxSum n radius f (x + j) := by
  intro count
  induction count with
  | zero =>
      intro x sum hxc hsum j hj
      exact absurd hj (Nat.not_lt_zero j)
  | succ c ih =>
      intro x sum hxc hsum j hj
      cases j with
      | zero =>
          simpa [lineGo] using hsum
      | succ j =>
          have hs2 : sum + f (min (n - 1) (x + radius + 1)) - f (x - radius)
              = boxSum n radius f (x + 1) := by
            rw [hsum, ← boxSum_succ n radius f x (by omega)]
          have hrec := ih (x + 1) _ (by omega) hs2 j (by omega)
          have hidx : x + (j + 1) = x + 1 + j := by omega
          rw [hidx]
          simpa [lineGo] using hrec

theorem linePass_getD (n radius : ℕ) (f : ℕ → ℤ) (x : ℕ) (hx : x < n) :
    (linePass n radius f).getD x 0 = boxSum n radius f x := by
  have h0 : initSum n radius f = boxSum n radius f 0 := by
    unfold initSum boxSum
    have hfun : (fun k => f (min (n - 1) (k - radius)))
        = (fun k => f (min (n - 1) (0 + k - radius))) := by
      funext k
      have harg : k - radius = 0 + k - radius := by omega
      rw [harg]
    rw [hfun]
  have hrec := lineGo_getD n radius f n 0 (initSum n radius f) (by omega) h0 x hx
  simpa [linePass] using hrec

theorem sum_bounds_255 : ∀ (l : List ℤ), (∀ a ∈ l, 0 ≤ a ∧ a ≤ 255) →
    0 ≤ l.sum ∧ l.sum ≤ (l.length : ℤ) * 255 := by
  intro l
  induction l with
  | nil =>
      intro _
      simp
  | cons a l ih =>
      intro h
      have ha := h a (List.mem_cons_self a l)
      have hl := ih (fun b hb => h b (List.mem_cons_of_mem a hb))
      constructor
      · simp only [List.sum_cons]
        linarith [ha.1, hl.1]
      · simp only [List.sum_cons, List.length_cons]
        push_cast
        linarith [ha.2, hl.2]

theorem boxSum_bounds (n radius : ℕ) (f : ℕ → ℤ) (x : ℕ)
    (hf : ∀ i, 0 ≤ f i ∧ f i ≤ 255) :
    0 ≤ boxSum n radius f x ∧ boxSum n radius f x ≤ (2 * (radius : ℤ) + 1) * 255 := by
  unfold boxSum
  have h := sum_bounds_255 ((List.range (2 * radius + 1)).map
      (fun k => f (min (n - 1) (x + k - radius))))
    (fun a ha => by
      obtain ⟨k, hk, rfl⟩ := List.mem_map.1 ha
      exact hf _)
  rcases h with ⟨h1, h2⟩
  refine ⟨h1, ?_⟩
  have hlen : ((((List.range (2 * radius + 1)).map
      (fun k => f (min (n - 1) (x + k - radius)))).length : ℤ)) = 2 * (radius : ℤ) + 1 := by
    simp only [List.length_map, List.length_range]
    push_cast
    ring
  rw [hlen] at h2
  exact h2

theorem tmpAt_eq_spec (w radius : ℕ) (data : List RGBA) (hr : radius ≤ 128)
    (ha : ∀ i, 0 ≤ (getPx data i).a ∧ (getPx data i).a ≤ 255) (i : ℕ) :
    tmpAt w radius data i = tmpSpecAt w radius data i := by
  unfold tmpAt tmpSpecAt hRow
  rcases Nat.eq_zero_or_pos w with hw | hw
  · subst hw
    rfl
  · rw [linePass_getD w radius _ (i % w) (Nat.mod_lt _ hw)]
    have hb := boxSum_bounds w radius (fun x => (getPx data (i / w * w + x)).a) (i % w)
      (fun x => ha _)
    refine Int.emod_eq_of_lt hb.1 ?_
    have h2 := hb.2
    have hr2 : (radius : ℤ) ≤ 128 := by exact_mod_cast hr
    omega

theorem vCol_eq_spec (w h radius : ℕ) (data : List RGBA) (hr : radius ≤ 128)
    (ha : ∀ i, 0 ≤ (getPx data i).a ∧ (getPx data i).a ≤ 255) (x : ℕ) :
    vCol w h radius data x = vColSpec w h radius data x := by
  unfold vCol vColSpec
  congr 1
  funext y
  exact tmpAt_eq_spec w radius data hr ha (y * w + x)

theorem outAlpha_eq_spec (w h radius : ℕ) (data : List RGBA) (hr : radius ≤ 128)
    (ha : ∀ i, 0 ≤ (getPx data i).a ∧ (getPx data i).a ≤ 255) (i : ℕ) :
    outAlpha w h radius data i = outAlphaSpec w h radius data i := by
  unfold outAlpha outAlphaSpec
  rw [vCol_eq_spec w h radius data hr ha (i % w)]

theorem getPx_eq_getElem {data : List RGBA} {i : ℕ} (h : i < data.length) :
    getPx data i = data.get ⟨i, h⟩ := by
  unfold getPx
  rw [List.getD_eq_getElem?_getD, List.getElem?_eq_getElem h]
  rfl

theorem getPx_mapIdx (data : List RGBA) (f : ℕ → RGBA → RGBA) (i : ℕ)
    (h : i < data.length) :
    getPx (data.mapIdx f) i = f i (data.get ⟨i, h⟩) := by
  rw [getPx_eq_getElem (show i < (data.mapIdx f).length by simpa using h)]
  simp

theorem sum_map_const (m : ℕ) (c : ℤ) :
    ((List.range m).map (fun _ => c)).sum = (m : ℤ) * c := by
  induction m with
  | zero => simp
  | succ m ih =>
      rw [List.range_succ, List.map_append, List.sum_append, ih]
      simp only [List.map_cons, List.map_nil, List.sum_cons, List.sum_nil, add_zero]
      push_cast
      ring

theorem linePass_one (radius : ℕ) (f : ℕ → ℤ) :
    linePass 1 radius f = [initSum 1 radius f] := rfl

theorem initSum_one (radius : ℕ) (f : ℕ → ℤ) :
    initSum 1 radius f = ((2 * radius + 1 : ℕ) : ℤ) * f 0 := by
  unfold initSum
  have hfun : (fun k => f (min (1 - 1) (k - radius))) = fun _ => f 0 := by
    funext k
    have hm : min (1 - 1) (k - radius) = 0 := by omega
    rw [hm]
  rw [hfun]
  exact sum_map_const (2 * radius + 1) (f 0)

theorem tmpAt_c9 : tmpAt 1 129 [(⟨0, 0, 0, 255⟩ : RGBA)] 0 = 509 := by
  unfold tmpAt hRow
  simp only [Nat.zero_div, Nat.zero_mod, Nat.zero_mul, Nat.zero_add]
  rw [linePass_one, List.getD_cons_zero]
  rw [initSum_one]
  decide

theorem vCol_c9 : (vCol 1 1 129 [(⟨0, 0, 0, 255⟩ : RGBA)] 0).getD 0 0 = 131831 := by
  unfold vCol
  rw [linePass_one, List.getD_cons_zero]
  rw [initSum_one]
  rw [show tmpAt 1 129 [(⟨0, 0, 0, 255⟩ : RGBA)] (0 * 1 + 0) = 509 from tmpAt_c9]
  decide

theorem tmpSpecAt_c9 : tmpSpecAt 1 129 [(⟨0, 0, 0, 255⟩ : RGBA)] 0 = 66045 := by
  unfold tmpSpecAt hRow
  simp only [Nat.zero_div, Nat.zero_mod, Nat.zero_mul, Nat.zero_add]
  rw [linePass_one, List.getD_cons_zero]
  rw [initSum_one]
  decide

theorem vColSpec_c9 :
    (vColSpec 1 1 129 [(⟨0, 0, 0, 255⟩ : RGBA)] 0).getD 0 0 = 17105655 := by
  unfold vColSpec
  rw [linePass_one, List.getD_cons_zero]
  rw [initSum_one]
  rw [show tmpSpecAt 1 129 [(⟨0, 0, 0, 255⟩ : RGBA)] (0 * 1 + 0) = 66045 from tmpSpecAt_c9]
  decide

/-- C9 counterexample: radius 129 on a 1x1 fully opaque image.  The
horizontal window sum is 259 * 255 = 66045, which the Uint16Array store
truncates to 509; the vertical pass then yields 259 * 509 = 131831 and
the final alpha is round(131831 / 67081) = 2, while the specification
formula (exact intermediate sums) yields 255. -/
theorem claim_C9_counterexample :
    (getPx (blurAlpha 1 1 129 [⟨0, 0, 0, 255⟩]) 0).a = 2 ∧
    (getPx (blurAlphaSpec 1 1 129 [⟨0, 0, 0, 255⟩]) 0).a = 255 ∧
    (2 : ℤ) ≠ 255 := by
  refine ⟨?_, ?_, by decide⟩
  · have h1 : (getPx (blurAlpha 1 1 129 [⟨0, 0, 0, 255⟩]) 0).a
        = outAlpha 1 1 129 [⟨0, 0, 0, 255⟩] 0 := rfl
    rw [h1]
    unfold outAlpha
    rw [show ((vCol 1 1 129 [(⟨0, 0, 0, 255⟩ : RGBA)] (0 % 1)).getD (0 / 1) 0)
        = 131831 from vCol_c9]
    unfold jsRoundQ
    rw [Int.floor_eq_iff]
    constructor
    · push_cast
      norm_num
    · push_cast
      norm_num
  · have h2 : (getPx (blurAlphaSpec 1 1 129 [⟨0, 0, 0, 255⟩]) 0).a
        = outAlphaSpec 1 1 129 [⟨0, 0, 0, 255⟩] 0 := rfl
    rw [h2]
    unfold outAlphaSpec
    rw [show ((vColSpec 1 1 129 [(⟨0, 0, 0, 255⟩ : RGBA)] (0 % 1)).getD (0 / 1) 0)
        = 17105655 from vColSpec_c9]
    unfold jsRoundQ
    rw [Int.floor_eq_iff]
    constructor
    · push_cast
      norm_num
    · push_cast
      norm_num

/-- C9 (amended): for every image whose alpha bytes lie in [0, 255] and
every radius with 0 < radius <= 128 — so that the (2 radius + 1)-wide
window sum of bytes is at most 257 * 255 = 65535 and the Uint16
intermediate store truncates nothing — blurAlpha preserves the pixel
count, leaves every red, green and blue byte unchanged, and computes
exactly the specification formula: horizontal running-sum window pass,
vertical pass over the horizontal result, each output alpha the rounded
value of sum / (2 radius + 1)^2.  For radius >= 129 the intermediate can
overflow and the formula fails (see the counterexample). -/
theorem claim_C9_alpha_feathering (w h radius : ℕ) (data : List RGBA)
    (hr0 : 0 < radius) (hr : radius ≤ 128)
    (ha : ∀ i, 0 ≤ (getPx data i).a ∧ (getPx data i).a ≤ 255) :
    (blurAlpha w h radius data).length = data.length ∧
    (∀ i, (getPx (blurAlpha w h radius data) i).r = (getPx data i).r ∧
      (getPx (blurAlpha w h radius data) i).g = (getPx data i).g ∧
      (getPx (blurAlpha w h radius data) i).b = (getPx data i).b) ∧
    blurAlpha w h radius data = blurAlphaSpec w h radius data := by
  refine ⟨?_, ?_, ?_⟩
  · unfold blurAlpha
    exact List.length_mapIdx
  · intro i
    by_cases hi : i < data.length
    · unfold blurAlpha
      rw [getPx_mapIdx data _ i hi, getPx_eq_getElem hi]
      split
      · exact ⟨rfl, rfl, rfl⟩
      · exact ⟨rfl, rfl, rfl⟩
    · push_neg at hi
      unfold blurAlpha
      rw [getPx_eq_default (show ((data.mapIdx _).length ≤ i) by simpa using hi),
        getPx_eq_default hi]
      exact ⟨rfl, rfl, rfl⟩
  · have hout : ∀ i, outAlpha w h radius data i = outAlphaSpec w h radius data i :=
      fun i => outAlpha_eq_spec w h radius data hr ha i
    unfold blurAlpha blurAlphaSpec
    simp only [hout]

/-- C9 witness: the amended theorem applied to the 1x1 image of alpha 100
at radius 1. -/
theorem claim_C9_alpha_feathering_witness :
    (0 < 1 ∧ 1 ≤ 128 ∧
      (∀ i, 0 ≤ (getPx [(⟨1, 2, 3, 100⟩ : RGBA)] i).a ∧
        (getPx [(⟨1, 2, 3, 100⟩ : RGBA)] i).a ≤ 255)) ∧
    ((blurAlpha 1 1 1 [⟨1, 2, 3, 100⟩]).length = [(⟨1, 2, 3, 100⟩ : RGBA)].length ∧
      (∀ i, (getPx (blurAlpha 1 1 1 [⟨1, 2, 3, 100⟩]) i).r
          = (getPx [(⟨1, 2, 3, 100⟩ : RGBA)] i).r ∧
        (getPx (blurAlpha 1 1 1 [⟨1, 2, 3, 100⟩]) i).g
          = (getPx [(⟨1, 2, 3, 100⟩ : RGBA)] i).g ∧
        (getPx (blurAlpha 1 1 1 [⟨1, 2, 3, 100⟩]) i).b
          = (getPx [(⟨1, 2, 3, 100⟩ : RGBA)] i).b) ∧
      blurAlpha 1 1 1 [⟨1, 2, 3, 100⟩] = blurAlphaSpec 1 1 1 [⟨1, 2, 3, 100⟩]) := by
  have hA : ∀ i, 0 ≤ (getPx [(⟨1, 2, 3, 100⟩ : RGBA)] i).a ∧
      (getPx [(⟨1, 2, 3, 100⟩ : RGBA)] i).a ≤ 255 := by
    intro i
    cases i with
    | zero => exact ⟨by decide, by decide⟩
    | succ n =>
        have hd : getPx [(⟨1, 2, 3, 100⟩ : RGBA)] (n + 1) = dfltPx := rfl
        rw [hd]
        exact ⟨by decide, by decide⟩
  exact ⟨⟨by decide, by decide, hA⟩,
    claim_C9_alpha_feathering 1 1 1 [⟨1, 2, 3, 100⟩] (by decide) (by decide) hA⟩

end Klecks
